import Mathlib

/-!
Shallow embedding of `src/tree-sitter-parser.js` (class `TreeSitterParser`).

Syntax-tree nodes are modelled by the mutual inductive `Node`/`NodeList`
(a node's `type`, `text`, `startPosition.row`, `startPosition.column` and
`children`, exactly the fields the source reads).  The JavaScript `node.parent`
back-pointer, used only by `getFullName` on arrow functions, is modelled by
passing the parent node down the recursion explicitly.

JS `Map`s (insertion ordered, `set` replaces in place or appends) become
association lists with `mhas`/`mget?`/`mset`; JS `Set.add` becomes `sadd`.
A JS value that may be a string or `undefined` becomes `Option String`
(`none` = `undefined`); interpolating `undefined` yields the string
"undefined" (`jsShow`), and string truthiness is `truthyS`.

Exceptions (`TypeError` on reading a field of `undefined`/`null`) are modelled
with `Except PState`, the error value carrying the instance state at the time
of the throw, since the mutations made before a throw persist on the JS
instance.  `parse` catches at its boundary and returns "[]", as in the source.
-/

mutual
inductive Node where
  | mk (type : String) (text : String) (row : Nat) (col : Nat) (children : NodeList)
inductive NodeList where
  | nil
  | cons (head : Node) (tail : NodeList)
end

def Node.type : Node → String
  | .mk t _ _ _ _ => t

def Node.text : Node → String
  | .mk _ tx _ _ _ => tx

def Node.row : Node → Nat
  | .mk _ _ r _ _ => r

def Node.col : Node → Nat
  | .mk _ _ _ c _ => c

def Node.childList : Node → NodeList
  | .mk _ _ _ _ cs => cs

def NodeList.toList : NodeList → List Node
  | .nil => []
  | .cons h t => h :: t.toList

/-- Children of a node, as a plain list (the order of `node.children` in JS). -/
def Node.children (n : Node) : List Node := n.childList.toList

def NodeList.ofList : List Node → NodeList
  | [] => .nil
  | h :: t => .cons h (NodeList.ofList t)

/-- Convenience constructor mirroring a tree-sitter node literal. -/
def nd (type text : String) (row col : Nat) (children : List Node) : Node :=
  .mk type text row col (NodeList.ofList children)

mutual
def sizeN : Node → Nat
  | .mk _ _ _ _ cs => 1 + sizeNL cs
def sizeNL : NodeList → Nat
  | .nil => 0
  | .cons h t => sizeN h + sizeNL t
end

def sizeL : List Node → Nat
  | [] => 0
  | c :: r => sizeN c + sizeL r

/-- `${node.startPosition.row + 1}:${node.startPosition.column}` as in the source. -/
def posOf (n : Node) : String := toString (n.row + 1) ++ ":" ++ toString n.col

/-- Association-list lookup membership, the model of JS `Map.has`. -/
def mhas {α β : Type} [BEq α] : List (α × β) → α → Bool
  | [], _ => false
  | p :: rest, k => if p.1 == k then true else mhas rest k

/-- Association-list lookup, the model of JS `Map.get`. -/
def mget? {α β : Type} [BEq α] : List (α × β) → α → Option β
  | [], _ => none
  | p :: rest, k => if p.1 == k then some p.2 else mget? rest k

/-- JS `Map.set`: replace the value at an existing key in place, else append. -/
def mset {α β : Type} [BEq α] : List (α × β) → α → β → List (α × β)
  | [], k, v => [(k, v)]
  | p :: rest, k, v => if p.1 == k then (k, v) :: rest else p :: mset rest k v

/-- JS `Set.add` on an insertion-ordered set of strings. -/
def sadd (l : List String) (x : String) : List String :=
  if l.contains x then l else l ++ [x]

/-- Value stored in `this.functions`: `{ type, location, calls }`. -/
structure FnInfo where
  type : String
  location : Nat
  calls : List String
deriving Repr, DecidableEq

/-- The three instance tables created in the `TreeSitterParser` constructor.
Keys of `functions` are `Option String` because the source can call
`functions.set(undefined, ...)` (a class declaration without an identifier
child); `relations` is keyed by the string `caller ++ ":" ++ callee`. -/
structure PState where
  functions : List (Option String × FnInfo)
  relations : List (String × String)
  imports : List (String × String)
deriving Repr, DecidableEq

/-- The tables as the constructor leaves them: all empty. -/
def initState : PState := ⟨[], [], []⟩

def isMermaidSpecial (c : Char) : Bool :=
  c = '<' || c = '>' || c = Char.ofNat 123 || c = Char.ofNat 125 || c = '|'

def listFlat {α : Type} : List (List α) → List α
  | [] => []
  | x :: xs => x ++ listFlat xs

/-- `str.replace(/[<>{}|]/g, '\\$&')`: prepend a backslash to each reserved char. -/
def escapeMermaid (s : String) : String :=
  String.mk (listFlat (s.data.map (fun c => if isMermaidSpecial c then ['\\', c] else [c])))

/-- `addFunction(name, location, type)`: register if absent; no-op when present. -/
def addFunction (s : PState) (name : Option String) (location : Nat) (type : String) : PState :=
  if mhas s.functions name then s
  else { s with functions := mset s.functions name ⟨type, location, []⟩ }

/-- `addRelation(caller, callee, location)`: first write per key wins; on a fresh
key also append the callee to the caller's `calls` set when the caller is a
known symbol. -/
def addRelation (s : PState) (caller callee location : String) : PState :=
  let key := caller ++ ":" ++ callee
  if mhas s.relations key then s
  else
    let s1 : PState := { s with relations := mset s.relations key location }
    match mget? s1.functions (some caller) with
    | some info =>
        let info' : FnInfo := { info with calls := sadd info.calls callee }
        { s1 with functions := mset s1.functions (some caller) info' }
    | none => s1

/-- Interpolation of a string-or-undefined JS value into a template literal. -/
def jsShow : Option String → String
  | some s => s
  | none => "undefined"

/-- JS truthiness of a string-or-undefined value: `undefined` and "" are falsy. -/
def truthyS : Option String → Bool
  | none => false
  | some s => s ≠ ""

/-- `getFullName(node, parentClass)`.  The `parent` argument models
`node.parent`; when the node is an `arrow_function` and its parent is `null`,
reading `parent.type` throws, hence the `Except`.  The local `name` starts as
the empty string and is only assigned in the listed cases. -/
def getFullName (node : Node) (parent : Option Node) (parentClass : Option String) :
    Except Unit (Option String) := do
  let t := node.type
  let name : Option String ←
    if t == "function_declaration" || t == "generator_function_declaration" ||
       t == "method_definition" then
      pure ((node.children.find? (fun c => c.type == "identifier")).map Node.text)
    else if t == "class_declaration" then
      pure ((node.children.find? (fun c => c.type == "identifier")).map Node.text)
    else if t == "arrow_function" then
      match parent with
      | none => throw ()
      | some p =>
        if p.type == "variable_declarator" then
          pure ((p.children.find? (fun c => c.type == "identifier")).map Node.text)
        else
          pure (some "")
    else
      pure (some "")
  match parentClass with
  | some pc => if pc == "" then pure name else pure (some (pc ++ "." ++ jsShow name))
  | none => pure name

/-- Total variant of `getFullName` used to state scope facts; it agrees with
`getFullName` whenever the latter does not throw. -/
def getFullNameT (node : Node) (parent : Option Node) (parentClass : Option String) :
    Option String :=
  match getFullName node parent parentClass with
  | .ok v => v
  | .error _ => none

/-- Fuel-indexed body of `getMemberExpressionName`'s chain walk: the list of
name parts accumulated by the `while` loop (deepest part first, matching the
`unshift` order).  The fuel only serves termination; `sizeN node` is enough. -/
def gmenPartsF : Nat → Node → List String
  | 0, _ => []
  | fuel + 1, node =>
    if node.type == "identifier" then [node.text]
    else if node.type == "member_expression" then
      let propPart : List String :=
        match node.children.find? (fun c => c.type == "property_identifier") with
        | some p => [p.text]
        | none => []
      match node.children.find?
          (fun c => c.type == "identifier" || c.type == "member_expression") with
      | some next => gmenPartsF fuel next ++ propPart
      | none => propPart
    else []

def gmenParts (node : Node) : List String := gmenPartsF (sizeN node) node

/-- `getMemberExpressionName(node)`: the parts joined with '.'. -/
def getMemberExpressionName (node : Node) : String :=
  String.intercalate "." (gmenParts node)

/-- The `forEach` body over named-import specifiers in `processImports`:
register the first identifier child of the specifier; `find(...).text` on a
specifier without one throws. -/
def importSpecStep (acc : Except PState PState) (spec : Node) : Except PState PState :=
  match acc with
  | .error e => .error e
  | .ok st =>
    match spec.children.find? (fun c => c.type == "identifier") with
    | some i => .ok { st with imports := mset st.imports i.text ("import:" ++ i.text) }
    | none => .error st

/-- The default-import branch of `processImports`: register the identifier (or
the identifier inside the matched `import_clause`; `find(...).text` throws when
the clause has none, which the guard makes unreachable). -/
def importDefaultStep (s : PState) (defaultImport : Option Node) : Except PState PState :=
  match defaultImport with
  | none => .ok s
  | some d =>
    if d.type == "identifier" then
      .ok { s with imports := mset s.imports d.text ("import:" ++ d.text) }
    else
      match d.children.find? (fun c => c.type == "identifier") with
      | some i => .ok { s with imports := mset s.imports i.text ("import:" ++ i.text) }
      | none => .error s

/-- `processImports(node)`.  The default-import branch runs before the
named-imports branch; the specifier search filters the direct children of the
first `named_imports`-or-`import_clause` child of the statement. -/
def processImports (s : PState) (node : Node) : Except PState PState :=
  if node.type == "import_statement" || node.type == "import_declaration" then
    let defaultImport := node.children.find? (fun c =>
      c.type == "identifier" ||
      (c.type == "import_clause" && c.children.any (fun d => d.type == "identifier")))
    let namedImports := node.children.find? (fun c =>
      c.type == "named_imports" || c.type == "import_clause")
    match importDefaultStep s defaultImport with
    | .error e => .error e
    | .ok s1 =>
      match namedImports with
      | none => .ok s1
      | some ni =>
        (ni.children.filter (fun c => c.type == "import_specifier")).foldl
          importSpecStep (.ok s1)
  else .ok s

/-- `processVariableDeclaration(node, currentScope)`: on `const x = f(...)` the
call records a relation unconditionally, then the variable name is written
into `functions` with `Map.set` (overwriting any existing entry).  Reading
`callee.type` when the call expression has no children throws. -/
def processVariableDeclaration (s : PState) (node : Node) (currentScope : String) :
    Except PState PState :=
  match node.children.find? (fun c => c.type == "variable_declarator") with
  | none => .ok s
  | some declarator =>
    let identifier := declarator.children.find? (fun c => c.type == "identifier")
    let value := declarator.children.find? (fun c =>
      c.type == "call_expression" || c.type == "member_expression")
    match identifier, value with
    | some ident, some v =>
      let step1 : Except PState PState :=
        if v.type == "call_expression" then
          match v.children.head? with
          | none => .error s
          | some callee =>
            if callee.type == "identifier" then
              .ok (addRelation s currentScope callee.text (posOf node))
            else .ok s
        else .ok s
      match step1 with
      | .error e => .error e
      | .ok s1 =>
        .ok { s1 with functions := mset s1.functions (some ident.text) ⟨"variable", node.row + 1, []⟩ }
    | _, _ => .ok s

/-- The candidate callee name `processCallExpression` derives from the callee
node: identifier text, member-chain name, or the initial empty string. -/
def calleeNameOf (calleeNode : Node) : String :=
  if calleeNode.type == "identifier" then calleeNode.text
  else if calleeNode.type == "member_expression" then getMemberExpressionName calleeNode
  else ""

/-- `processCallExpression(node, currentScope)`: resolve the first child as
identifier or member chain; record an edge only when the candidate is a known
function or import. -/
def processCallExpression (s : PState) (node : Node) (currentScope : String) : PState :=
  if node.children.length ≥ 1 then
    match node.children.head? with
    | none => s
    | some calleeNode =>
      if calleeNameOf calleeNode ≠ "" &&
         (mhas s.functions (some (calleeNameOf calleeNode)) ||
          mhas s.imports (calleeNameOf calleeNode)) then
        addRelation s currentScope (calleeNameOf calleeNode) (posOf node)
      else s
  else s

def jsUpperStart (s : String) : Bool :=
  match s.data with
  | [] => false
  | c :: _ => 'A' ≤ c && c ≤ 'Z'

/-- The `attributes.forEach` body in `processJSXElement`: look into the
attribute for a `jsx_expression` and resolve an embedded call expression or
identifier (an embedded member expression matches the search but has no
handling branch and is dropped). -/
def jsxAttrStep (currentScope : String) (st : PState) (attr : Node) : PState :=
  match attr.children.find? (fun c => c.type == "jsx_expression") with
  | none => st
  | some e =>
    match e.children.find? (fun c =>
        c.type == "identifier" || c.type == "call_expression" ||
        c.type == "member_expression") with
    | none => st
    | some jc =>
      if jc.type == "call_expression" then processCallExpression st jc currentScope
      else if jc.type == "identifier" then
        if mhas st.functions (some jc.text) || mhas st.imports jc.text then
          addRelation st currentScope jc.text (posOf jc)
        else st
      else st

/-- Body of the `elements.forEach` in `processJSXElement`, for one element. -/
def processJSXOne (s : PState) (element : Node) (currentScope : String) : PState :=
  let s1 :=
    match element.children.find? (fun c => c.type == "identifier") with
    | some tid =>
      let componentName := tid.text
      if jsUpperStart componentName &&
         (mhas s.imports componentName || mhas s.functions (some componentName)) then
        addRelation s currentScope componentName (posOf element)
      else s
    | none => s
  (element.children.filter (fun c => c.type == "jsx_attribute")).foldl
    (jsxAttrStep currentScope) s1

/-- `processJSXElement(node, currentScope)`: collect the opening/self-closing
tag found among the children plus direct child elements, then handle each. -/
def processJSXElement (s : PState) (node : Node) (currentScope : String) : PState :=
  let elements :=
    (match node.children.find? (fun c =>
        c.type == "jsx_opening_element" || c.type == "jsx_self_closing_element") with
     | some e => [e]
     | none => []) ++
    node.children.filter (fun c =>
      c.type == "jsx_element" || c.type == "jsx_self_closing_element")
  elements.foldl (fun st e => processJSXOne st e currentScope) s

/-- One visit of `traverseTree` minus the recursion into children: process
the import bindings, then the `switch`, returning the updated state and the
`parentClass` and `currentScope` values the children will receive. -/
def processNode (s : PState) (node : Node) (parent : Option Node)
    (parentClass : Option String) (currentScope : String) :
    Except PState (PState × Option String × String) := do
  let s1 ←
    match processImports s node with
    | .error e => Except.error e
    | .ok s1 => Except.ok s1
  let t := node.type
  if t == "class_declaration" then
    match getFullName node parent none with
    | .error _ => throw s1
    | .ok className =>
      pure (addFunction s1 className (node.row + 1) "class", className, currentScope)
  else if t == "function_declaration" || t == "generator_function_declaration" ||
          t == "method_definition" then
    match getFullName node parent parentClass with
    | .error _ => throw s1
    | .ok funcName =>
      if truthyS funcName then
        pure (addFunction s1 funcName (node.row + 1) "function", parentClass, jsShow funcName)
      else pure (s1, parentClass, currentScope)
  else if t == "arrow_function" then
    match getFullName node parent parentClass with
    | .error _ => throw s1
    | .ok funcName =>
      if truthyS funcName then
        pure (addFunction s1 funcName (node.row + 1) "arrow", parentClass, jsShow funcName)
      else pure (s1, parentClass, currentScope)
  else if t == "call_expression" then
    pure (processCallExpression s1 node currentScope, parentClass, currentScope)
  else if t == "jsx_element" || t == "jsx_self_closing_element" then
    pure (processJSXElement s1 node currentScope, parentClass, currentScope)
  else if t == "lexical_declaration" || t == "variable_declaration" then
    match processVariableDeclaration s1 node currentScope with
    | .error e => throw e
    | .ok s2 => pure (s2, parentClass, currentScope)
  else
    pure (s1, parentClass, currentScope)

/-- The scope context a node passes to its children, as a pure function of the
node, its parent and the incoming context (independent of the table state). -/
def scopeStep (node : Node) (parent : Option Node)
    (parentClass : Option String) (currentScope : String) : Option String × String :=
  let t := node.type
  if t == "class_declaration" then (getFullNameT node parent none, currentScope)
  else if t == "function_declaration" || t == "generator_function_declaration" ||
          t == "method_definition" || t == "arrow_function" then
    let fn := getFullNameT node parent parentClass
    if truthyS fn then (parentClass, jsShow fn) else (parentClass, currentScope)
  else (parentClass, currentScope)

mutual
def traverseTreeF : Nat → PState → Node → Option Node → Option String → String →
    Except PState PState
  | 0, s, _, _, _, _ => .error s
  | fuel + 1, s, node, parent, parentClass, currentScope =>
    match processNode s node parent parentClass currentScope with
    | .error e => .error e
    | .ok (s1, pc', sc') => traverseListF fuel s1 node.children node pc' sc'
def traverseListF : Nat → PState → List Node → Node → Option String → String →
    Except PState PState
  | _, s, [], _, _, _ => .ok s
  | 0, s, _ :: _, _, _, _ => .error s
  | fuel + 1, s, c :: rest, parent, parentClass, currentScope =>
    match traverseTreeF fuel s c (some parent) parentClass currentScope with
    | .error e => .error e
    | .ok s' => traverseListF fuel s' rest parent parentClass currentScope
end

/-- `traverseTree(node, parentClass, currentScope)` on instance state `s`;
the fuel `2 * sizeN node` is always sufficient (see the unfolding lemmas). -/
def traverseTree (s : PState) (node : Node) (parent : Option Node)
    (parentClass : Option String) (currentScope : String) : Except PState PState :=
  traverseTreeF (2 * sizeN node) s node parent parentClass currentScope

/-- The recursion of `traverseTree` over a list of children. -/
def traverseList (s : PState) (l : List Node) (parent : Node)
    (parentClass : Option String) (currentScope : String) : Except PState PState :=
  traverseListF (2 * sizeL l + 1) s l parent parentClass currentScope

/-- The state an `Except PState PState` outcome leaves on the instance. -/
def outState : Except PState PState → PState
  | .ok s => s
  | .error s => s

/-- The state component of a `processNode` outcome. -/
def pnState : Except PState (PState × Option String × String) → PState
  | .ok (s, _, _) => s
  | .error s => s

/-- JS `String.prototype.split` with a single-character separator. -/
def splitChar (sep : Char) : List Char → List (List Char)
  | [] => [[]]
  | c :: rest =>
    match splitChar sep rest with
    | [] => [[]]
    | grp :: more => if c = sep then [] :: grp :: more else (c :: grp) :: more

/-- One entry of the result mapping in `parse`: split the Edge Store key on
':', escape the label `"location: caller"` and the callee.  When the key has
no ':' the destructured `callee` is `undefined` and `escapeMermaid` throws. -/
def emitOne (key location : String) : Except Unit (String × String) :=
  match (splitChar ':' key.data).map String.mk with
  | caller :: callee :: _ =>
    .ok (escapeMermaid (location ++ ": " ++ caller), escapeMermaid callee)
  | _ => .error ()

/-- The `Array.from(this.relations.entries()).map(...)` step of `parse`. -/
def emitRelations : List (String × String) → Except Unit (List (String × String))
  | [] => .ok []
  | (key, loc) :: rest =>
    match emitOne key loc with
    | .error e => .error e
    | .ok p =>
      match emitRelations rest with
      | .error e => .error e
      | .ok ps => .ok (p :: ps)

def hexDigit (n : Nat) : Char :=
  if n < 10 then Char.ofNat (48 + n) else Char.ofNat (97 + n - 10)

def jsonEscChar (c : Char) : List Char :=
  if c = '"' then ['\\', '"']
  else if c = '\\' then ['\\', '\\']
  else if c = Char.ofNat 8 then ['\\', 'b']
  else if c = Char.ofNat 9 then ['\\', 't']
  else if c = Char.ofNat 10 then ['\\', 'n']
  else if c = Char.ofNat 12 then ['\\', 'f']
  else if c = Char.ofNat 13 then ['\\', 'r']
  else if c.toNat < 32 then ['\\', 'u', '0', '0', hexDigit (c.toNat / 16), hexDigit (c.toNat % 16)]
  else [c]

def jsonQuote (s : String) : String :=
  "\"" ++ String.mk (listFlat (s.data.map jsonEscChar)) ++ "\""

/-- `JSON.stringify` of the list of two-element string arrays. -/
def jsonStringify (rs : List (String × String)) : String :=
  "[" ++ String.intercalate "," (rs.map (fun p => "[" ++ jsonQuote p.1 ++ "," ++ jsonQuote p.2 ++ "]")) ++ "]"

/-- ASCII lowercasing of one character (the extension keys the lookup can
match are ASCII, so this models `toLowerCase` faithfully on them). -/
def lowerChar (c : Char) : Char :=
  if 'A' ≤ c && c ≤ 'Z' then Char.ofNat (c.toNat + 32) else c

/-- `filePath.split('.').pop().toLowerCase()`. -/
def extOf (filePath : String) : String :=
  String.mk ((((splitChar '.' filePath.data).map String.mk).getLast?.getD "").data.map lowerChar)

/-- Whether `this.parsers[ext]` holds a grammar (the own keys js/jsx/ts/tsx). -/
def hasGrammar (ext : String) : Bool :=
  ext == "js" || ext == "jsx" || ext == "ts" || ext == "tsx"

/-- `parse(filePath)` on instance state `st`.  The file system and the
tree-sitter front end are external collaborators, modelled as the `readResult`
of `fs.readFileSync` and the `treeOf` function giving the root node of
`this.parser.parse(content)` (either may throw).  Every exception inside the
`try` is caught at this boundary and converted to "[]"; the instance tables
are NOT reset, so the final tables are returned alongside the output string. -/
def parse (st : PState) (filePath : String) (readResult : Except Unit String)
    (treeOf : String → Except Unit Node) : PState × String :=
  match readResult with
  | .error _ => (st, "[]")
  | .ok content =>
    let ext := extOf filePath
    if hasGrammar ext then
      match treeOf content with
      | .error _ => (st, "[]")
      | .ok root =>
        match traverseTree st root none none "global" with
        | .error s' => (s', "[]")
        | .ok s' =>
          match emitRelations s'.relations with
          | .error _ => (s', "[]")
          | .ok results => (s', jsonStringify results)
    else (st, "[]")

/-- Spec-side notion for C5: the `(parentClass, currentScope)` context the
walker hands to the node reached from `node` by the child-index path, together
with validity of the path. -/
def scopeAt (node : Node) (parent : Option Node) (parentClass : Option String)
    (currentScope : String) : List Nat → Option (Option String × String)
  | [] => some (parentClass, currentScope)
  | i :: p =>
    match node.children[i]? with
    | none => none
    | some c =>
      let r := scopeStep node parent parentClass currentScope
      scopeAt c (some node) r.1 r.2 p

/-- Whether a node kind is one of the declarations that (when its resolved
name is truthy) becomes the `currentScope` of its subtree. -/
def isScopeDecl (t : String) : Bool :=
  t == "function_declaration" || t == "generator_function_declaration" ||
  t == "method_definition" || t == "arrow_function"

/-- The `parentClass` update a node applies for its children. -/
def classStep (node : Node) (parent : Option Node) (parentClass : Option String) :
    Option String :=
  if node.type == "class_declaration" then getFullNameT node parent none else parentClass

/-- Spec-side notion for C5: the names of the named function/method/arrow
declarations met strictly above the end of the path, outermost first. -/
def declNamesAlong (node : Node) (parent : Option Node) (parentClass : Option String) :
    List Nat → List String
  | [] => []
  | i :: p =>
    match node.children[i]? with
    | none => []
    | some c =>
      (if isScopeDecl node.type && truthyS (getFullNameT node parent parentClass) then
        [jsShow (getFullNameT node parent parentClass)]
      else []) ++
      declNamesAlong c (some node) (classStep node parent parentClass) p

/-- Spec-side notion for C10: the base identifier the member-chain walk of
`getMemberExpressionName` reaches, if any. -/
def chainBaseF : Nat → Node → Option Node
  | 0, _ => none
  | fuel + 1, node =>
    if node.type == "identifier" then some node
    else if node.type == "member_expression" then
      match node.children.find?
          (fun c => c.type == "identifier" || c.type == "member_expression") with
      | some next => chainBaseF fuel next
      | none => none
    else none

def chainBase (node : Node) : Option Node := chainBaseF (sizeN node) node

/-- Spec-side notion for C10: only the property names collected along the
member chain, without any base contribution. -/
def chainPropsF : Nat → Node → List String
  | 0, _ => []
  | fuel + 1, node =>
    if node.type == "identifier" then []
    else if node.type == "member_expression" then
      let propPart : List String :=
        match node.children.find? (fun c => c.type == "property_identifier") with
        | some p => [p.text]
        | none => []
      match node.children.find?
          (fun c => c.type == "identifier" || c.type == "member_expression") with
      | some next => chainPropsF fuel next ++ propPart
      | none => propPart
    else []

def chainProps (node : Node) : List String := chainPropsF (sizeN node) node

/-- Spec-side check for C6: every reserved diagram character is immediately
preceded by exactly one backslash, and backslashes occur only as such escape
markers (so no reserved character is doubly escaped). -/
def escapedOnce : List Char → Bool
  | [] => true
  | c :: rest =>
    if c = '\\' then
      match rest with
      | d :: rest' => isMermaidSpecial d && escapedOnce rest'
      | [] => false
    else
      !isMermaidSpecial c && escapedOnce rest

/-! Concrete syntax trees, shaped as the tree-sitter-javascript grammar shapes
them, used by the counterexamples and witnesses below. -/

/-- The callee identifier of `foo()` in the C1 scenario. -/
def c1Callee : Node := nd "identifier" "foo" 0 10 []

/-- The initializer `foo()` of the C1 scenario. -/
def c1Value : Node := nd "call_expression" "" 0 10 [c1Callee, nd "arguments" "()" 0 13 []]

/-- The declared identifier `x` of the C1 scenario. -/
def c1Ident : Node := nd "identifier" "x" 0 6 []

/-- The declarator `x = foo()` of the C1 scenario. -/
def c1Declarator : Node :=
  nd "variable_declarator" "" 0 6 [c1Ident, nd "=" "=" 0 8 [], c1Value]

/-- The statement `const x = foo();` of the C1 scenario. -/
def c1LexNode : Node :=
  nd "lexical_declaration" "" 0 0 [nd "const" "const" 0 0 [], c1Declarator]

/-- Tree of `const x = foo();` with `foo` never declared anywhere. -/
def c1Tree : Node := nd "program" "" 0 0 [c1LexNode]

/-- Node of `function foo() {}` on source line 1. -/
def c3FnNode : Node :=
  nd "function_declaration" "" 0 0 [
    nd "function" "function" 0 0 [],
    nd "identifier" "foo" 0 9 [],
    nd "formal_parameters" "()" 0 12 [],
    nd "statement_block" "" 0 15 []
  ]

/-- Tree holding only `function foo() {}`. -/
def c3FnOnlyTree : Node := nd "program" "" 0 0 [c3FnNode]

/-- The declared identifier `foo` of the C3 variable declaration. -/
def c3Ident : Node := nd "identifier" "foo" 1 6 []

/-- The initializer `a.b` of the C3 variable declaration. -/
def c3Value : Node :=
  nd "member_expression" "" 1 12 [
    nd "identifier" "a" 1 12 [],
    nd "." "." 1 13 [],
    nd "property_identifier" "b" 1 14 []
  ]

/-- The declarator `foo = a.b` of the C3 scenario. -/
def c3Declarator : Node :=
  nd "variable_declarator" "" 1 6 [c3Ident, nd "=" "=" 1 10 [], c3Value]

/-- The statement `const foo = a.b;` of the C3 scenario, on source line 2. -/
def c3LexNode : Node :=
  nd "lexical_declaration" "" 1 0 [nd "const" "const" 1 0 [], c3Declarator]

/-- Tree of `function foo() {}` followed by `const foo = a.b;` on line 2. -/
def c3Tree : Node := nd "program" "" 0 0 [c3FnNode, c3LexNode]

/-- Tree of `import { X as Y } from 'm';` (specifiers sit inside
`import_clause` → `named_imports`, as the grammar nests them). -/
def c4AliasTree : Node :=
  nd "program" "" 0 0 [
    nd "import_statement" "" 0 0 [
      nd "import" "import" 0 0 [],
      nd "import_clause" "" 0 7 [
        nd "named_imports" "" 0 7 [
          nd "\x7b" "\x7b" 0 7 [],
          nd "import_specifier" "" 0 9 [
            nd "identifier" "X" 0 9 [],
            nd "as" "as" 0 11 [],
            nd "identifier" "Y" 0 14 []
          ],
          nd "\x7d" "\x7d" 0 16 []
        ]
      ],
      nd "from" "from" 0 18 [],
      nd "string" "'m'" 0 23 []
    ]
  ]

/-- Tree of `import X from 'm';`. -/
def c4DefaultTree : Node :=
  nd "program" "" 0 0 [
    nd "import_statement" "" 0 0 [
      nd "import" "import" 0 0 [],
      nd "import_clause" "" 0 7 [nd "identifier" "X" 0 7 []],
      nd "from" "from" 0 9 [],
      nd "string" "'m'" 0 14 []
    ]
  ]

/-- The `<Dashboard/>` tag nested in the `element` attribute expression. -/
def c7DashboardTag : Node :=
  nd "jsx_self_closing_element" "" 3 26 [
    nd "<" "<" 3 26 [],
    nd "identifier" "Dashboard" 3 27 [],
    nd "/" "/" 3 36 [],
    nd ">" ">" 3 37 []
  ]

/-- The `<Route element={<Dashboard/>} />` tag. -/
def c7RouteTag : Node :=
  nd "jsx_self_closing_element" "" 3 9 [
    nd "<" "<" 3 9 [],
    nd "identifier" "Route" 3 10 [],
    nd "jsx_attribute" "" 3 16 [
      nd "property_identifier" "element" 3 16 [],
      nd "=" "=" 3 23 [],
      nd "jsx_expression" "" 3 24 [
        nd "\x7b" "\x7b" 3 24 [],
        c7DashboardTag,
        nd "\x7d" "\x7d" 3 38 []
      ]
    ],
    nd "/" "/" 3 40 [],
    nd ">" ">" 3 41 []
  ]

/-- Tree of the C7 scenario: default imports of `Route` and `Dashboard`, then
`function App() { return <Route element={<Dashboard/>} />; }`. -/
def c7Tree : Node :=
  nd "program" "" 0 0 [
    nd "import_statement" "" 0 0 [
      nd "import" "import" 0 0 [],
      nd "import_clause" "" 0 7 [nd "identifier" "Route" 0 7 []],
      nd "from" "from" 0 13 [],
      nd "string" "'r'" 0 18 []
    ],
    nd "import_statement" "" 1 0 [
      nd "import" "import" 1 0 [],
      nd "import_clause" "" 1 7 [nd "identifier" "Dashboard" 1 7 []],
      nd "from" "from" 1 17 [],
      nd "string" "'d'" 1 22 []
    ],
    nd "function_declaration" "" 2 0 [
      nd "function" "function" 2 0 [],
      nd "identifier" "App" 2 9 [],
      nd "formal_parameters" "()" 2 12 [],
      nd "statement_block" "" 2 15 [
        nd "\x7b" "\x7b" 2 15 [],
        nd "return_statement" "" 3 2 [
          nd "return" "return" 3 2 [],
          c7RouteTag
        ],
        nd "\x7d" "\x7d" 4 0 []
      ]
    ]
  ]

/-- Tree of `function foo() {}` then the statement `foo();` on line 2. -/
def c9FirstTree : Node :=
  nd "program" "" 0 0 [
    nd "function_declaration" "" 0 0 [
      nd "function" "function" 0 0 [],
      nd "identifier" "foo" 0 9 [],
      nd "formal_parameters" "()" 0 12 [],
      nd "statement_block" "" 0 15 []
    ],
    nd "expression_statement" "" 1 0 [
      nd "call_expression" "" 1 0 [
        nd "identifier" "foo" 1 0 [],
        nd "arguments" "()" 1 3 []
      ]
    ]
  ]

/-- Tree of an empty program. -/
def c9EmptyTree : Node := nd "program" "" 0 0 []

/-- An `arrow_function` root: `getFullName` reads `node.parent.type` with a
`null` parent, so traversing this tree throws. -/
def c8ThrowTree : Node := nd "arrow_function" "=>" 0 0 []

/-- A call node `foo();` visited at global scope, for the C5 witness. -/
def c5CallNode : Node :=
  nd "call_expression" "" 1 0 [nd "identifier" "foo" 1 0 [], nd "arguments" "()" 1 3 []]

/-- A markup element `<Comp>...</Comp>` whose tag is import-bound, for the C1
witness. -/
def c1JsxNode : Node :=
  nd "jsx_element" "" 0 0 [
    nd "jsx_opening_element" "" 0 0 [
      nd "<" "<" 0 0 [],
      nd "identifier" "Comp" 0 1 [],
      nd ">" ">" 0 5 []
    ],
    nd "jsx_closing_element" "" 0 6 []
  ]

/-- The member chain of `this.a.b` (innermost base `this`, not an identifier). -/
def c10Chain : Node :=
  nd "member_expression" "" 0 0 [
    nd "member_expression" "" 0 0 [
      nd "this" "this" 0 0 [],
      nd "." "." 0 4 [],
      nd "property_identifier" "a" 0 5 []
    ],
    nd "." "." 0 6 [],
    nd "property_identifier" "b" 0 7 []
  ]

/-! Library of facts about the association-list model of JS `Map`. -/

theorem mhas_eq_mem {α β : Type} [BEq α] [LawfulBEq α] :
    ∀ (m : List (α × β)) (k : α), mhas m k = true ↔ k ∈ m.map Prod.fst
  | [], k => by simp [mhas]
  | p :: rest, k => by
    cases hb : p.1 == k
    · have hne : p.1 ≠ k := by
        intro hh
        rw [hh] at hb
        simp at hb
      have hne' : k ≠ p.1 := fun hh => hne hh.symm
      simp [mhas, hb, mhas_eq_mem rest k, hne']
    · have heq : p.1 = k := eq_of_beq hb
      simp [mhas, hb, heq]

theorem mhas_false_of_eq_false {α β : Type} [BEq α] (m : List (α × β)) (k : α)
    (h : ¬ mhas m k = true) : mhas m k = false := by
  cases hh : mhas m k
  · rfl
  · exact absurd hh h

theorem mset_of_mhas_false {α β : Type} [BEq α] :
    ∀ (m : List (α × β)) (k : α) (v : β), mhas m k = false → mset m k v = m ++ [(k, v)]
  | [], _, _, _ => rfl
  | p :: rest, k, v, h => by
    unfold mhas at h
    cases hb : p.1 == k
    · rw [hb] at h
      simp at h
      simp [mset, hb, mset_of_mhas_false rest k v h]
    · rw [hb] at h
      simp at h

theorem mset_keys_of_mhas_true {α β : Type} [BEq α] [LawfulBEq α] :
    ∀ (m : List (α × β)) (k : α) (v : β), mhas m k = true →
      (mset m k v).map Prod.fst = m.map Prod.fst
  | [], k, v, h => by simp [mhas] at h
  | p :: rest, k, v, h => by
    cases hb : p.1 == k
    · unfold mhas at h
      rw [hb] at h
      simp at h
      simp [mset, hb, mset_keys_of_mhas_true rest k v h]
    · have heq : p.1 = k := eq_of_beq hb
      simp [mset, hb, heq]

theorem mhas_append {α β : Type} [BEq α] :
    ∀ (a b : List (α × β)) (k : α), mhas (a ++ b) k = (mhas a k || mhas b k)
  | [], b, k => by simp [mhas]
  | p :: rest, b, k => by
    cases hb : p.1 == k
    · simp [mhas, hb, mhas_append rest b k]
    · simp [mhas, hb]

theorem mhas_congr_keys {α β γ : Type} [BEq α] [LawfulBEq α]
    (m₁ : List (α × β)) (m₂ : List (α × γ)) (k : α)
    (h : m₁.map Prod.fst = m₂.map Prod.fst) : mhas m₁ k = mhas m₂ k := by
  cases h1 : mhas m₁ k
  · cases h2 : mhas m₂ k
    · rfl
    · have hm := (mhas_eq_mem m₂ k).mp h2
      rw [← h] at hm
      have := (mhas_eq_mem m₁ k).mpr hm
      rw [h1] at this
      exact absurd this (by simp)
  · have hm := (mhas_eq_mem m₁ k).mp h1
    rw [h] at hm
    exact ((mhas_eq_mem m₂ k).mpr hm).symm

theorem mhas_mset_mono {α β : Type} [BEq α] [LawfulBEq α]
    (m : List (α × β)) (k k' : α) (v : β) (h : mhas m k' = true) :
    mhas (mset m k v) k' = true := by
  by_cases hk : mhas m k = true
  · rw [mhas_congr_keys (mset m k v) m k' (mset_keys_of_mhas_true m k v hk)]
    exact h
  · rw [mset_of_mhas_false m k v (mhas_false_of_eq_false m k hk)]
    rw [mhas_append]
    simp [h]

theorem mget?_mset_self {α β : Type} [BEq α] [LawfulBEq α] :
    ∀ (m : List (α × β)) (k : α) (v : β), mget? (mset m k v) k = some v
  | [], k, v => by simp [mset, mget?]
  | p :: rest, k, v => by
    cases hb : p.1 == k
    · simp [mset, hb, mget?, mget?_mset_self rest k v]
    · simp [mset, hb, mget?]

theorem mhas_of_mget?_some {α β : Type} [BEq α] :
    ∀ (m : List (α × β)) (k : α) (v : β), mget? m k = some v → mhas m k = true
  | [], k, v, h => by simp [mget?] at h
  | p :: rest, k, v, h => by
    unfold mget? at h
    cases hb : p.1 == k
    · rw [hb] at h
      simp at h
      simp [mhas, hb, mhas_of_mget?_some rest k v h]
    · simp [mhas, hb]

/-! Facts about the table-mutating operations. -/

theorem addRelation_of_mhas (s : PState) (caller callee loc : String)
    (h : mhas s.relations (caller ++ ":" ++ callee) = true) :
    addRelation s caller callee loc = s := by
  unfold addRelation
  simp [h]

theorem addRelation_relations_of_mhas_false (s : PState) (caller callee loc : String)
    (h : mhas s.relations (caller ++ ":" ++ callee) = false) :
    (addRelation s caller callee loc).relations =
      s.relations ++ [(caller ++ ":" ++ callee, loc)] := by
  unfold addRelation
  simp only [h, Bool.false_eq_true, if_false]
  cases hg : mget? s.functions (some caller) with
  | none => simp [hg, mset_of_mhas_false s.relations _ loc h]
  | some info => simp [hg, mset_of_mhas_false s.relations _ loc h]

theorem addRelation_functions_keys (s : PState) (caller callee loc : String) :
    (addRelation s caller callee loc).functions.map Prod.fst = s.functions.map Prod.fst := by
  unfold addRelation
  cases h : mhas s.relations (caller ++ ":" ++ callee) with
  | true => simp [h]
  | false =>
    simp only [h, Bool.false_eq_true, if_false]
    cases hg : mget? s.functions (some caller) with
    | none => simp [hg]
    | some info =>
      have hm : mhas s.functions (some caller) = true := mhas_of_mget?_some _ _ _ hg
      simp [hg, mset_keys_of_mhas_true s.functions (some caller) _ hm]

theorem addRelation_imports (s : PState) (caller callee loc : String) :
    (addRelation s caller callee loc).imports = s.imports := by
  unfold addRelation
  cases h : mhas s.relations (caller ++ ":" ++ callee) with
  | true => simp [h]
  | false =>
    simp only [h, Bool.false_eq_true, if_false]
    cases hg : mget? s.functions (some caller) with
    | none => simp [hg]
    | some info => simp [hg]

theorem addRelation_relations_cases (s : PState) (caller callee loc : String) :
    (addRelation s caller callee loc).relations = s.relations ∨
    (addRelation s caller callee loc).relations =
      s.relations ++ [(caller ++ ":" ++ callee, loc)] := by
  cases h : mhas s.relations (caller ++ ":" ++ callee) with
  | true => exact Or.inl (by rw [addRelation_of_mhas s caller callee loc h])
  | false => exact Or.inr (addRelation_relations_of_mhas_false s caller callee loc h)

theorem addRelation_mhas_key (s : PState) (caller callee loc : String) :
    mhas (addRelation s caller callee loc).relations (caller ++ ":" ++ callee) = true := by
  cases h : mhas s.relations (caller ++ ":" ++ callee) with
  | true => rw [addRelation_of_mhas s caller callee loc h]; exact h
  | false =>
    rw [addRelation_relations_of_mhas_false s caller callee loc h, mhas_append]
    simp [mhas]

theorem nodup_append_single {α : Type} (l : List α) (x : α)
    (h : l.Nodup) (hx : x ∉ l) : (l ++ [x]).Nodup := by
  rw [List.nodup_append]
  refine ⟨h, List.nodup_singleton x, ?_⟩
  intro a ha hb
  rw [List.mem_singleton] at hb
  exact hx (hb ▸ ha)

theorem addRelation_nodup (s : PState) (caller callee loc : String)
    (h : (s.relations.map Prod.fst).Nodup) :
    ((addRelation s caller callee loc).relations.map Prod.fst).Nodup := by
  rcases addRelation_relations_cases s caller callee loc with hc | hc
  · rw [hc]; exact h
  · rw [hc, List.map_append]
    refine nodup_append_single _ _ h ?_
    intro hmem
    cases hh : mhas s.relations (caller ++ ":" ++ callee) with
    | true =>
      rw [addRelation_of_mhas s caller callee loc hh] at hc
      have : s.relations.length = s.relations.length + 1 := by
        conv_lhs => rw [hc]
        simp
      omega
    | false =>
      have := (mhas_eq_mem s.relations (caller ++ ":" ++ callee)).mpr hmem
      rw [hh] at this
      exact absurd this (by simp)

theorem addFunction_relations (s : PState) (name : Option String) (loc : Nat) (t : String) :
    (addFunction s name loc t).relations = s.relations := by
  unfold addFunction
  cases h : mhas s.functions name with
  | true => simp [h]
  | false => simp [h]

theorem addFunction_imports (s : PState) (name : Option String) (loc : Nat) (t : String) :
    (addFunction s name loc t).imports = s.imports := by
  unfold addFunction
  cases h : mhas s.functions name with
  | true => simp [h]
  | false => simp [h]

theorem addFunction_of_mhas (s : PState) (name : Option String) (loc : Nat) (t : String)
    (h : mhas s.functions name = true) : addFunction s name loc t = s := by
  unfold addFunction
  simp [h]

theorem addFunction_functions_mono (s : PState) (name : Option String) (loc : Nat)
    (t : String) (k : Option String) (h : mhas s.functions k = true) :
    mhas (addFunction s name loc t).functions k = true := by
  unfold addFunction
  cases hh : mhas s.functions name with
  | true => simp [hh]; exact h
  | false =>
    simp only [hh, Bool.false_eq_true, if_false]
    exact mhas_mset_mono s.functions name k _ h

/-- Preservation relation threaded through the traversal: the Edge Store only
grows by appending at the end, symbol-table keys are never removed, and
distinctness of edge keys is preserved. -/
def StepOK (s t : PState) : Prop :=
  (∃ d, t.relations = s.relations ++ d) ∧
  (∀ k, mhas s.functions k = true → mhas t.functions k = true) ∧
  ((s.relations.map Prod.fst).Nodup → (t.relations.map Prod.fst).Nodup)

theorem stepOK_refl (s : PState) : StepOK s s :=
  ⟨⟨[], by simp⟩, fun _ h => h, id⟩

theorem stepOK_trans {a b c : PState} (h1 : StepOK a b) (h2 : StepOK b c) : StepOK a c := by
  obtain ⟨⟨d1, hd1⟩, hf1, hn1⟩ := h1
  obtain ⟨⟨d2, hd2⟩, hf2, hn2⟩ := h2
  refine ⟨⟨d1 ++ d2, ?_⟩, fun k hk => hf2 k (hf1 k hk), fun h => hn2 (hn1 h)⟩
  rw [hd2, hd1, List.append_assoc]

theorem stepOK_of_eq {s t : PState} (hr : t.relations = s.relations)
    (hf : t.functions = s.functions) : StepOK s t := by
  refine ⟨⟨[], by simp [hr]⟩, fun k hk => ?_, fun h => by rw [hr]; exact h⟩
  rw [hf]
  exact hk

theorem stepOK_addRelation (s : PState) (c e l : String) : StepOK s (addRelation s c e l) := by
  refine ⟨?_, ?_, fun h => addRelation_nodup s c e l h⟩
  · rcases addRelation_relations_cases s c e l with hc | hc
    · exact ⟨[], by rw [hc]; simp⟩
    · exact ⟨_, hc⟩
  · intro k hk
    rw [mhas_congr_keys _ s.functions k (addRelation_functions_keys s c e l)]
    exact hk

theorem stepOK_addFunction (s : PState) (n : Option String) (loc : Nat) (t : String) :
    StepOK s (addFunction s n loc t) := by
  refine ⟨⟨[], by rw [addFunction_relations]; simp⟩,
    fun k hk => addFunction_functions_mono s n loc t k hk,
    fun h => by rw [addFunction_relations]; exact h⟩

theorem foldl_rel {α : Type} (R : PState → PState → Prop)
    (hrefl : ∀ s, R s s) (htrans : ∀ {a b c : PState}, R a b → R b c → R a c)
    (f : PState → α → PState) (hf : ∀ s a, R s (f s a)) :
    ∀ (l : List α) (s : PState), R s (l.foldl f s)
  | [], s => hrefl s
  | a :: rest, s => htrans (hf s a) (foldl_rel R hrefl htrans f hf rest (f s a))

theorem stepOK_processCallExpression (s : PState) (node : Node) (sc : String) :
    StepOK s (processCallExpression s node sc) := by
  unfold processCallExpression
  split
  · split
    · exact stepOK_refl s
    · split
      · exact stepOK_addRelation s sc _ _
      · exact stepOK_refl s
  · exact stepOK_refl s

theorem stepOK_jsxAttrStep (sc : String) (st : PState) (attr : Node) :
    StepOK st (jsxAttrStep sc st attr) := by
  unfold jsxAttrStep
  split
  · exact stepOK_refl st
  · split
    · exact stepOK_refl st
    · split
      · exact stepOK_processCallExpression st _ sc
      · split
        · split
          · exact stepOK_addRelation st sc _ _
          · exact stepOK_refl st
        · exact stepOK_refl st

theorem stepOK_processJSXOne (s : PState) (element : Node) (sc : String) :
    StepOK s (processJSXOne s element sc) := by
  unfold processJSXOne
  refine stepOK_trans (b := ?_) ?_ ?_
  · exact
      match element.children.find? (fun c => c.type == "identifier") with
      | some tid =>
        if jsUpperStart tid.text &&
           (mhas s.imports tid.text || mhas s.functions (some tid.text)) then
          addRelation s sc tid.text (posOf element)
        else s
      | none => s
  · split
    · split
      · exact stepOK_addRelation s sc _ _
      · exact stepOK_refl s
    · exact stepOK_refl s
  · exact foldl_rel StepOK stepOK_refl stepOK_trans (jsxAttrStep sc)
      (fun st a => stepOK_jsxAttrStep sc st a) _ _

theorem stepOK_processJSXElement (s : PState) (node : Node) (sc : String) :
    StepOK s (processJSXElement s node sc) := by
  unfold processJSXElement
  exact foldl_rel StepOK stepOK_refl stepOK_trans
    (fun st e => processJSXOne st e sc)
    (fun st e => stepOK_processJSXOne st e sc) _ _

theorem importSpecStep_foldl_pres :
    ∀ (l : List Node) (acc : Except PState PState),
      (outState (l.foldl importSpecStep acc)).relations = (outState acc).relations ∧
      (outState (l.foldl importSpecStep acc)).functions = (outState acc).functions
  | [], acc => ⟨rfl, rfl⟩
  | spec :: rest, acc => by
    have hstep : (outState (importSpecStep acc spec)).relations = (outState acc).relations ∧
        (outState (importSpecStep acc spec)).functions = (outState acc).functions := by
      unfold importSpecStep
      cases acc with
      | error e => exact ⟨rfl, rfl⟩
      | ok st =>
        cases h : spec.children.find? (fun c => c.type == "identifier") with
        | some i => exact ⟨rfl, rfl⟩
        | none => exact ⟨rfl, rfl⟩
    have ih := importSpecStep_foldl_pres rest (importSpecStep acc spec)
    exact ⟨ih.1.trans hstep.1, ih.2.trans hstep.2⟩

theorem importDefaultStep_pres (s : PState) (d : Option Node) :
    (outState (importDefaultStep s d)).relations = s.relations ∧
    (outState (importDefaultStep s d)).functions = s.functions := by
  unfold importDefaultStep
  cases d with
  | none => exact ⟨rfl, rfl⟩
  | some dn =>
    cases hb : dn.type == "identifier" with
    | true => simp [hb, outState]
    | false =>
      simp only [hb, Bool.false_eq_true, if_false]
      cases h : dn.children.find? (fun c => c.type == "identifier") with
      | some i => exact ⟨rfl, rfl⟩
      | none => exact ⟨rfl, rfl⟩

theorem processImports_pres (s : PState) (node : Node) :
    (outState (processImports s node)).relations = s.relations ∧
    (outState (processImports s node)).functions = s.functions := by
  unfold processImports
  split
  · dsimp only
    cases hd : importDefaultStep s (node.children.find? (fun c =>
        c.type == "identifier" ||
        (c.type == "import_clause" && c.children.any (fun d => d.type == "identifier")))) with
    | error e =>
      have hp := importDefaultStep_pres s (node.children.find? (fun c =>
        c.type == "identifier" ||
        (c.type == "import_clause" && c.children.any (fun d => d.type == "identifier"))))
      rw [hd] at hp
      exact hp
    | ok s1 =>
      have hp := importDefaultStep_pres s (node.children.find? (fun c =>
        c.type == "identifier" ||
        (c.type == "import_clause" && c.children.any (fun d => d.type == "identifier"))))
      rw [hd] at hp
      cases hn : node.children.find? (fun c =>
          c.type == "named_imports" || c.type == "import_clause") with
      | none => exact hp
      | some ni =>
        have hf := importSpecStep_foldl_pres
          (ni.children.filter (fun c => c.type == "import_specifier")) (.ok s1)
        exact ⟨hf.1.trans hp.1, hf.2.trans hp.2⟩
  · exact ⟨rfl, rfl⟩

theorem stepOK_processImports (s : PState) (node : Node) :
    StepOK s (outState (processImports s node)) := by
  have h := processImports_pres s node
  exact stepOK_of_eq h.1 h.2

theorem stepOK_processVariableDeclaration (s : PState) (node : Node) (sc : String) :
    StepOK s (outState (processVariableDeclaration s node sc)) := by
  unfold processVariableDeclaration
  split
  · exact stepOK_refl s
  · dsimp only
    split
    · rename_i ident v hident hv
      have hmid : ∀ s1 : PState, StepOK s s1 →
          StepOK s (outState (Except.ok (PState.mk
            (mset s1.functions (some ident.text) (FnInfo.mk "variable" (node.row + 1) []))
            s1.relations s1.imports))) := by
        intro s1 h1
        exact stepOK_trans h1 ⟨⟨[], by simp [outState]⟩, fun k hk => mhas_mset_mono _ _ _ _ hk, id⟩
      cases hb : v.type == "call_expression" with
      | false =>
        simp only [hb, Bool.false_eq_true, if_false]
        exact hmid s (stepOK_refl s)
      | true =>
        simp only [hb, if_true]
        cases hh : v.children.head? with
        | none => exact stepOK_refl s
        | some callee =>
          cases hc : callee.type == "identifier" with
          | true =>
            simp only [hc, if_true]
            exact hmid _ (stepOK_addRelation s sc callee.text (posOf node))
          | false =>
            simp only [hc, Bool.false_eq_true, if_false]
            exact hmid s (stepOK_refl s)
    · exact stepOK_refl s

theorem stepOK_processNode (s : PState) (node : Node) (parent : Option Node)
    (pc : Option String) (sc : String) :
    StepOK s (pnState (processNode s node parent pc sc)) := by
  have hpi := stepOK_processImports s node
  unfold processNode
  cases hp : processImports s node with
  | error e =>
    rw [hp] at hpi
    simp only [bind, Except.bind, pnState]
    exact hpi
  | ok s1 =>
    rw [hp] at hpi
    have h1 : StepOK s s1 := hpi
    simp only [bind, Except.bind]
    have hfn : ∀ (gf : Except Unit (Option String)) (kind : String),
        StepOK s (pnState (match gf with
          | .error _ => Except.error s1
          | .ok funcName =>
            if truthyS funcName then
              Except.ok (addFunction s1 funcName (node.row + 1) kind, pc, jsShow funcName)
            else Except.ok (s1, pc, sc))) := by
      intro gf kind
      cases gf with
      | error u => exact h1
      | ok funcName =>
        dsimp only
        cases ht : truthyS funcName with
        | true =>
          simp only [ht, if_true, pnState]
          exact stepOK_trans h1 (stepOK_addFunction s1 funcName (node.row + 1) kind)
        | false =>
          simp only [ht, Bool.false_eq_true, if_false, pnState]
          exact h1
    split
    · cases hg : getFullName node parent none with
      | error u => simp only [pnState]; exact h1
      | ok className =>
        dsimp only [pnState]
        exact stepOK_trans h1 (stepOK_addFunction s1 className (node.row + 1) "class")
    · split
      · exact hfn (getFullName node parent pc) "function"
      · split
        · exact hfn (getFullName node parent pc) "arrow"
        · split
          · simp only [pnState]
            exact stepOK_trans h1 (stepOK_processCallExpression s1 node sc)
          · split
            · simp only [pnState]
              exact stepOK_trans h1 (stepOK_processJSXElement s1 node sc)
            · split
              · cases hv : processVariableDeclaration s1 node sc with
                | error e =>
                  have h2 := stepOK_processVariableDeclaration s1 node sc
                  rw [hv] at h2
                  simp only [pnState]
                  exact stepOK_trans h1 h2
                | ok s2 =>
                  have h2 := stepOK_processVariableDeclaration s1 node sc
                  rw [hv] at h2
                  simp only [pnState]
                  exact stepOK_trans h1 h2
              · simp only [pnState]; exact h1

/-- The traversal preserves any reflexive-transitive state relation that every
single `processNode` visit preserves; this holds for every fuel value and thus
for `traverseTree`/`traverseList`, whether the walk ends normally or throws. -/
theorem traverseRelF (R : PState → PState → Prop)
    (hrefl : ∀ s, R s s) (htrans : ∀ {a b c : PState}, R a b → R b c → R a c)
    (hstep : ∀ s node parent pc sc, R s (pnState (processNode s node parent pc sc))) :
    ∀ fuel : Nat,
      (∀ s node parent pc sc, R s (outState (traverseTreeF fuel s node parent pc sc))) ∧
      (∀ s l parent pc sc, R s (outState (traverseListF fuel s l parent pc sc))) := by
  intro fuel
  induction fuel with
  | zero =>
    constructor
    · intro s node parent pc sc
      exact hrefl s
    · intro s l parent pc sc
      cases l with
      | nil => exact hrefl s
      | cons c rest => exact hrefl s
  | succ n ih =>
    constructor
    · intro s node parent pc sc
      have hs := hstep s node parent pc sc
      unfold traverseTreeF
      cases hp : processNode s node parent pc sc with
      | error e =>
        rw [hp] at hs
        exact hs
      | ok r =>
        rw [hp] at hs
        obtain ⟨s1, pc', sc'⟩ := r
        exact htrans hs (ih.2 s1 node.children node pc' sc')
    · intro s l parent pc sc
      cases l with
      | nil => exact hrefl s
      | cons c rest =>
        unfold traverseListF
        cases ht : traverseTreeF n s c (some parent) pc sc with
        | error e =>
          have := ih.1 s c (some parent) pc sc
          rw [ht] at this
          exact this
        | ok s' =>
          have h1 := ih.1 s c (some parent) pc sc
          rw [ht] at h1
          exact htrans h1 (ih.2 s' rest parent pc sc)

/-- Instance of the traversal preservation for `StepOK`, at the wrapper level. -/
theorem stepOK_traverseTree (s : PState) (node : Node) (parent : Option Node)
    (pc : Option String) (sc : String) :
    StepOK s (outState (traverseTree s node parent pc sc)) :=
  (traverseRelF StepOK stepOK_refl stepOK_trans stepOK_processNode (2 * sizeN node)).1
    s node parent pc sc

theorem getFullNameT_of_ok (node : Node) (parent : Option Node) (pc : Option String)
    (v : Option String) (h : getFullName node parent pc = .ok v) :
    getFullNameT node parent pc = v := by
  unfold getFullNameT
  rw [h]

theorem addRelation_mem (s : PState) (c e l : String) :
    ∀ kl ∈ (addRelation s c e l).relations,
      kl ∈ s.relations ∨ kl = (c ++ ":" ++ e, l) := by
  intro kl hkl
  rcases addRelation_relations_cases s c e l with hc | hc
  · rw [hc] at hkl
    exact Or.inl hkl
  · rw [hc] at hkl
    rcases List.mem_append.mp hkl with h | h
    · exact Or.inl h
    · exact Or.inr (List.mem_singleton.mp h)

theorem processCallExpression_new (s : PState) (node : Node) (sc : String) :
    ∀ kl ∈ (processCallExpression s node sc).relations,
      kl ∈ s.relations ∨ ∃ cn, kl.1 = sc ++ ":" ++ cn ∧
        (mhas s.functions (some cn) || mhas s.imports cn) = true := by
  intro kl hkl
  unfold processCallExpression at hkl
  split at hkl
  · split at hkl
    · exact Or.inl hkl
    · rename_i calleeNode hhead
      split at hkl
      · rename_i hguard
        rcases addRelation_mem s sc (calleeNameOf calleeNode) (posOf node) kl hkl with h | h
        · exact Or.inl h
        · refine Or.inr ⟨calleeNameOf calleeNode, by rw [h], ?_⟩
          have := hguard
          rw [Bool.and_eq_true] at this
          exact this.2
      · exact Or.inl hkl
  · exact Or.inl hkl

/-- Relation used through the element/attribute folds of `processJSXElement`:
new edges carry the current scope as caller and a callee known to the tables
at entry, while the symbol keys and the Import Table are left untouched. -/
def GuardNew (sc : String) (s t : PState) : Prop :=
  (∀ kl ∈ t.relations, kl ∈ s.relations ∨ ∃ cn, kl.1 = sc ++ ":" ++ cn ∧
    (mhas s.functions (some cn) || mhas s.imports cn) = true) ∧
  t.functions.map Prod.fst = s.functions.map Prod.fst ∧
  t.imports = s.imports

theorem guardNew_refl (sc : String) (s : PState) : GuardNew sc s s :=
  ⟨fun _ hkl => Or.inl hkl, rfl, rfl⟩

theorem guardNew_trans {sc : String} {a b c : PState}
    (h1 : GuardNew sc a b) (h2 : GuardNew sc b c) : GuardNew sc a c := by
  obtain ⟨hm1, hk1, hi1⟩ := h1
  obtain ⟨hm2, hk2, hi2⟩ := h2
  refine ⟨?_, hk2.trans hk1, hi2.trans hi1⟩
  intro kl hkl
  rcases hm2 kl hkl with h | ⟨cn, hcn, hg⟩
  · exact hm1 kl h
  · refine Or.inr ⟨cn, hcn, ?_⟩
    rw [mhas_congr_keys b.functions a.functions (some cn) hk1, hi1] at hg
    exact hg

theorem guardNew_addRelation (sc : String) (s : PState) (cn loc : String)
    (hg : (mhas s.functions (some cn) || mhas s.imports cn) = true) :
    GuardNew sc s (addRelation s sc cn loc) := by
  refine ⟨?_, addRelation_functions_keys s sc cn loc, addRelation_imports s sc cn loc⟩
  intro kl hkl
  rcases addRelation_mem s sc cn loc kl hkl with h | h
  · exact Or.inl h
  · exact Or.inr ⟨cn, by rw [h], hg⟩

theorem guardNew_processCallExpression (sc : String) (s : PState) (node : Node) :
    GuardNew sc s (processCallExpression s node sc) := by
  unfold processCallExpression
  split
  · split
    · exact guardNew_refl sc s
    · rename_i calleeNode hhead
      split
      · rename_i hguard
        rw [Bool.and_eq_true] at hguard
        exact guardNew_addRelation sc s (calleeNameOf calleeNode) (posOf node) hguard.2
      · exact guardNew_refl sc s
  · exact guardNew_refl sc s

theorem guardNew_jsxAttrStep (sc : String) (st : PState) (attr : Node) :
    GuardNew sc st (jsxAttrStep sc st attr) := by
  unfold jsxAttrStep
  split
  · exact guardNew_refl sc st
  · split
    · exact guardNew_refl sc st
    · split
      · exact guardNew_processCallExpression sc st _
      · split
        · split
          · exact guardNew_addRelation sc st _ _ (by assumption)
          · exact guardNew_refl sc st
        · exact guardNew_refl sc st

theorem guardNew_processJSXOne (sc : String) (s : PState) (element : Node) :
    GuardNew sc s (processJSXOne s element sc) := by
  unfold processJSXOne
  refine guardNew_trans (b := ?_) ?_ ?_
  · exact
      match element.children.find? (fun c => c.type == "identifier") with
      | some tid =>
        if jsUpperStart tid.text &&
           (mhas s.imports tid.text || mhas s.functions (some tid.text)) then
          addRelation s sc tid.text (posOf element)
        else s
      | none => s
  · split
    · split
      · rename_i tid htid hguard
        rw [Bool.and_eq_true] at hguard
        refine guardNew_addRelation sc s tid.text (posOf element) ?_
        rw [Bool.or_comm]
        exact hguard.2
      · exact guardNew_refl sc s
    · exact guardNew_refl sc s
  · exact foldl_rel (GuardNew sc) (guardNew_refl sc) guardNew_trans (jsxAttrStep sc)
      (fun st a => guardNew_jsxAttrStep sc st a) _ _

theorem guardNew_processJSXElement (sc : String) (s : PState) (node : Node) :
    GuardNew sc s (processJSXElement s node sc) := by
  unfold processJSXElement
  exact foldl_rel (GuardNew sc) (guardNew_refl sc) guardNew_trans
    (fun st e => processJSXOne st e sc)
    (fun st e => guardNew_processJSXOne sc st e) _ _

theorem processVariableDeclaration_new (s : PState) (node : Node) (sc : String) :
    ∀ kl ∈ (outState (processVariableDeclaration s node sc)).relations,
      kl ∈ s.relations ∨ ∃ cn, kl.1 = sc ++ ":" ++ cn := by
  unfold processVariableDeclaration
  split
  · intro kl hkl
    exact Or.inl hkl
  · dsimp only
    split
    · rename_i ident v hident hv
      cases hb : v.type == "call_expression" with
      | false =>
        simp only [hb, Bool.false_eq_true, if_false]
        intro kl hkl
        exact Or.inl hkl
      | true =>
        simp only [hb, if_true]
        cases hh : v.children.head? with
        | none =>
          intro kl hkl
          exact Or.inl hkl
        | some callee =>
          cases hc : callee.type == "identifier" with
          | true =>
            simp only [hc, if_true]
            intro kl hkl
            rcases addRelation_mem s sc callee.text (posOf node) kl hkl with h | h
            · exact Or.inl h
            · exact Or.inr ⟨callee.text, by rw [h]⟩
          | false =>
            simp only [hc, Bool.false_eq_true, if_false]
            intro kl hkl
            exact Or.inl hkl
    · intro kl hkl
      exact Or.inl hkl

/-- Shape lemma for the variable-declaration path: with a declarator holding an
identifier and a call-expression initializer whose callee is an identifier, the
edge is recorded unconditionally (no Symbol/Import Table guard) and the
variable name is written over whatever `functions` held for it. -/
theorem processVariableDeclaration_record (s : PState) (node : Node) (sc : String)
    (d ident v callee : Node)
    (hd : node.children.find? (fun c => c.type == "variable_declarator") = some d)
    (hident : d.children.find? (fun c => c.type == "identifier") = some ident)
    (hv : d.children.find? (fun c =>
      c.type == "call_expression" || c.type == "member_expression") = some v)
    (hvt : v.type = "call_expression")
    (hhead : v.children.head? = some callee)
    (hct : callee.type = "identifier") :
    ∃ s', processVariableDeclaration s node sc = .ok s' ∧
      mhas s'.relations (sc ++ ":" ++ callee.text) = true ∧
      mget? s'.functions (some ident.text) = some (FnInfo.mk "variable" (node.row + 1) []) := by
  unfold processVariableDeclaration
  rw [hd]
  dsimp only
  rw [hident, hv]
  dsimp only
  simp only [hvt, beq_self_eq_true, if_true, hhead, hct]
  refine ⟨_, rfl, ?_, ?_⟩
  · exact addRelation_mhas_key s sc callee.text (posOf node)
  · exact mget?_mset_self _ _ _

/-- The scope pair a `processNode` outcome hands to the children. -/
def pnScope : Except PState (PState × Option String × String) → Option String × String
  | .ok (_, r) => r
  | .error _ => (none, "")

theorem processNode_relations_caller (s : PState) (node : Node) (parent : Option Node)
    (pc : Option String) (sc : String) :
    ∀ kl ∈ (pnState (processNode s node parent pc sc)).relations,
      kl ∈ s.relations ∨ ∃ cn, kl.1 = sc ++ ":" ++ cn := by
  unfold processNode
  cases hp : processImports s node with
  | error e =>
    have hpre : e.relations = s.relations := by
      have h := (processImports_pres s node).1
      rw [hp] at h
      exact h
    simp only [bind, Except.bind, pnState]
    intro kl hkl
    rw [hpre] at hkl
    exact Or.inl hkl
  | ok s1 =>
    have hpre : s1.relations = s.relations := by
      have h := (processImports_pres s node).1
      rw [hp] at h
      exact h
    simp only [bind, Except.bind]
    have hfn : ∀ (gf : Except Unit (Option String)) (kind : String),
        ∀ kl ∈ (pnState (match gf with
          | .error _ => Except.error s1
          | .ok funcName =>
            if truthyS funcName then
              Except.ok (addFunction s1 funcName (node.row + 1) kind, pc, jsShow funcName)
            else Except.ok (s1, pc, sc))).relations,
          kl ∈ s.relations ∨ ∃ cn, kl.1 = sc ++ ":" ++ cn := by
      intro gf kind
      cases gf with
      | error u =>
        intro kl hkl
        have hkl' : kl ∈ s1.relations := hkl
        rw [hpre] at hkl'
        exact Or.inl hkl'
      | ok funcName =>
        dsimp only
        cases ht : truthyS funcName with
        | true =>
          simp only [ht, if_true]
          intro kl hkl
          have hkl' : kl ∈ (addFunction s1 funcName (node.row + 1) kind).relations := hkl
          rw [addFunction_relations, hpre] at hkl'
          exact Or.inl hkl'
        | false =>
          simp only [ht, Bool.false_eq_true, if_false]
          intro kl hkl
          have hkl' : kl ∈ s1.relations := hkl
          rw [hpre] at hkl'
          exact Or.inl hkl'
    split
    · cases hg : getFullName node parent none with
      | error u =>
        intro kl hkl
        have hkl' : kl ∈ s1.relations := hkl
        rw [hpre] at hkl'
        exact Or.inl hkl'
      | ok className =>
        intro kl hkl
        have hkl' : kl ∈ (addFunction s1 className (node.row + 1) "class").relations := hkl
        rw [addFunction_relations, hpre] at hkl'
        exact Or.inl hkl'
    · split
      · exact hfn (getFullName node parent pc) "function"
      · split
        · exact hfn (getFullName node parent pc) "arrow"
        · split
          · intro kl hkl
            have hkl' : kl ∈ (processCallExpression s1 node sc).relations := hkl
            rcases processCallExpression_new s1 node sc kl hkl' with h | ⟨cn, hcn, _⟩
            · rw [hpre] at h
              exact Or.inl h
            · exact Or.inr ⟨cn, hcn⟩
          · split
            · intro kl hkl
              have hkl' : kl ∈ (processJSXElement s1 node sc).relations := hkl
              rcases (guardNew_processJSXElement sc s1 node).1 kl hkl' with h | ⟨cn, hcn, _⟩
              · rw [hpre] at h
                exact Or.inl h
              · exact Or.inr ⟨cn, hcn⟩
            · split
              · cases hv : processVariableDeclaration s1 node sc with
                | error e =>
                  have h2 := processVariableDeclaration_new s1 node sc
                  rw [hv] at h2
                  intro kl hkl
                  have hkl' : kl ∈ (outState (Except.error (α := PState) e)).relations := hkl
                  rcases h2 kl hkl' with h | ⟨cn, hcn⟩
                  · rw [hpre] at h
                    exact Or.inl h
                  · exact Or.inr ⟨cn, hcn⟩
                | ok s2 =>
                  have h2 := processVariableDeclaration_new s1 node sc
                  rw [hv] at h2
                  intro kl hkl
                  have hkl' : kl ∈ (outState (Except.ok (ε := PState) s2)).relations := hkl
                  rcases h2 kl hkl' with h | ⟨cn, hcn⟩
                  · rw [hpre] at h
                    exact Or.inl h
                  · exact Or.inr ⟨cn, hcn⟩
              · intro kl hkl
                have hkl' : kl ∈ s1.relations := hkl
                rw [hpre] at hkl'
                exact Or.inl hkl'

theorem processNode_scope (s : PState) (node : Node) (parent : Option Node)
    (pc : Option String) (sc : String) (r : PState × Option String × String)
    (h : processNode s node parent pc sc = .ok r) :
    r.2 = scopeStep node parent pc sc := by
  unfold processNode at h
  unfold scopeStep
  cases hp : processImports s node with
  | error e =>
    rw [hp] at h
    exact absurd h (by simp [bind, Except.bind])
  | ok s1 =>
    rw [hp] at h
    simp only [bind, Except.bind] at h
    dsimp only
    cases hc1 : node.type == "class_declaration" with
    | true =>
      simp only [hc1, if_true] at h ⊢
      cases hg : getFullName node parent none with
      | error u =>
        rw [hg] at h
        exact absurd h (by simp)
      | ok className =>
        rw [hg] at h
        have h2 : (className, sc) = r.2 := congrArg pnScope h
        rw [← h2, getFullNameT_of_ok node parent none className hg]
    | false =>
      simp only [hc1, Bool.false_eq_true, if_false] at h ⊢
      cases hc2 : (node.type == "function_declaration" ||
          node.type == "generator_function_declaration" ||
          node.type == "method_definition") with
      | true =>
        simp only [hc2, if_true] at h
        simp only [hc2, Bool.true_or, if_true]
        cases hg : getFullName node parent pc with
        | error u =>
          rw [hg] at h
          exact absurd h (by simp)
        | ok funcName =>
          rw [hg] at h
          rw [getFullNameT_of_ok node parent pc funcName hg]
          cases ht : truthyS funcName with
          | true =>
            simp only [ht, if_true] at h ⊢
            exact (congrArg pnScope h).symm
          | false =>
            simp only [ht, Bool.false_eq_true, if_false] at h ⊢
            exact (congrArg pnScope h).symm
      | false =>
        simp only [hc2, Bool.false_eq_true, if_false] at h
        simp only [hc2, Bool.false_or]
        cases hc3 : node.type == "arrow_function" with
        | true =>
          simp only [hc3, if_true] at h ⊢
          cases hg : getFullName node parent pc with
          | error u =>
            rw [hg] at h
            exact absurd h (by simp)
          | ok funcName =>
            rw [hg] at h
            rw [getFullNameT_of_ok node parent pc funcName hg]
            cases ht : truthyS funcName with
            | true =>
              simp only [ht, if_true] at h ⊢
              exact (congrArg pnScope h).symm
            | false =>
              simp only [ht, Bool.false_eq_true, if_false] at h ⊢
              exact (congrArg pnScope h).symm
        | false =>
          simp only [hc3, Bool.false_eq_true, if_false] at h ⊢
          cases hc4 : node.type == "call_expression" with
          | true =>
            simp only [hc4, if_true] at h
            exact (congrArg pnScope h).symm
          | false =>
            simp only [hc4, Bool.false_eq_true, if_false] at h
            cases hc5 : (node.type == "jsx_element" ||
                node.type == "jsx_self_closing_element") with
            | true =>
              simp only [hc5, if_true] at h
              exact (congrArg pnScope h).symm
            | false =>
              simp only [hc5, Bool.false_eq_true, if_false] at h
              cases hc6 : (node.type == "lexical_declaration" ||
                  node.type == "variable_declaration") with
              | true =>
                simp only [hc6, if_true] at h
                cases hv : processVariableDeclaration s1 node sc with
                | error e =>
                  rw [hv] at h
                  exact absurd h (by simp)
                | ok s2 =>
                  rw [hv] at h
                  exact (congrArg pnScope h).symm
              | false =>
                simp only [hc6, Bool.false_eq_true, if_false] at h
                exact (congrArg pnScope h).symm

theorem scopeStep_fst (node : Node) (parent : Option Node) (pc : Option String)
    (sc : String) : (scopeStep node parent pc sc).1 = classStep node parent pc := by
  unfold scopeStep classStep
  cases hc1 : node.type == "class_declaration" with
  | true => simp [hc1]
  | false =>
    simp only [hc1, Bool.false_eq_true, if_false]
    split
    · split
      · rfl
      · rfl
    · rfl

theorem scopeStep_snd (node : Node) (parent : Option Node) (pc : Option String)
    (sc : String) :
    (scopeStep node parent pc sc).2 =
      if isScopeDecl node.type && truthyS (getFullNameT node parent pc) then
        jsShow (getFullNameT node parent pc)
      else sc := by
  unfold scopeStep isScopeDecl
  cases hc1 : node.type == "class_declaration" with
  | true =>
    have hty : node.type = "class_declaration" := eq_of_beq hc1
    simp [hc1, hty]
  | false =>
    simp only [hc1, Bool.false_eq_true, if_false]
    cases hcond : (node.type == "function_declaration" ||
        node.type == "generator_function_declaration" ||
        node.type == "method_definition" || node.type == "arrow_function") with
    | true =>
      simp only [hcond, if_true, Bool.true_and]
      cases ht : truthyS (getFullNameT node parent pc) with
      | true => simp [ht]
      | false => simp [ht]
    | false => simp [hcond]

/-- Last element of a list, with a default: the claim-side reading of "the
innermost enclosing declaration wins, else the inherited scope". -/
def lastD {α : Type} : List α → α → α
  | [], d => d
  | a :: rest, _ => lastD rest a

/-- The `currentScope` the walker uses at the end of a valid path equals the
innermost named function/method/arrow declaration name passed on the way, or
the initial scope when the path crosses no such declaration. -/
theorem scopeAt_eq_lastD :
    ∀ (p : List Nat) (node : Node) (parent : Option Node) (pc : Option String)
      (sc : String) (out : Option String × String),
      scopeAt node parent pc sc p = some out →
      out.2 = lastD (declNamesAlong node parent pc p) sc := by
  intro p
  induction p with
  | nil =>
    intro node parent pc sc out h
    unfold scopeAt at h
    cases h
    rfl
  | cons i rest ih =>
    intro node parent pc sc out h
    unfold scopeAt at h
    cases hc : node.children[i]? with
    | none =>
      rw [hc] at h
      exact absurd h (by simp)
    | some c =>
      rw [hc] at h
      dsimp only at h
      unfold declNamesAlong
      rw [hc]
      dsimp only
      have ih' := ih c (some node) (scopeStep node parent pc sc).1
        (scopeStep node parent pc sc).2 out h
      rw [scopeStep_fst node parent pc sc, scopeStep_snd node parent pc sc] at ih'
      cases hdecl : (isScopeDecl node.type && truthyS (getFullNameT node parent pc)) with
      | true =>
        simp only [hdecl, if_true] at ih' ⊢
        simp only [List.singleton_append]
        exact ih'
      | false =>
        simp only [hdecl, Bool.false_eq_true, if_false] at ih' ⊢
        simp only [List.nil_append]
        exact ih'

/-- One step of the traversal: the children of a node are all visited with the
same scope pair `scopeStep node parent pc sc`, a pure function of the node and
the incoming context — the table state reached while processing the node (or
any sibling) cannot influence it. -/
theorem traverseTreeF_children_scope (fuel : Nat) (s : PState) (node : Node)
    (parent : Option Node) (pc : Option String) (sc : String) :
    traverseTreeF (fuel + 1) s node parent pc sc =
      match processNode s node parent pc sc with
      | .error e => .error e
      | .ok (s1, _, _) =>
        traverseListF fuel s1 node.children node
          (scopeStep node parent pc sc).1 (scopeStep node parent pc sc).2 := by
  unfold traverseTreeF
  cases hp : processNode s node parent pc sc with
  | error e => rfl
  | ok r =>
    obtain ⟨s1, pc', sc'⟩ := r
    have hsc := processNode_scope s node parent pc sc (s1, pc', sc') hp
    dsimp only
    rw [← hsc]

theorem sizeN_pos : ∀ node : Node, 1 ≤ sizeN node
  | .mk _ _ _ _ cs => by
    unfold sizeN
    omega

theorem sizeN_le_sizeNL_of_mem : ∀ (nl : NodeList) (c : Node), c ∈ nl.toList →
    sizeN c ≤ sizeNL nl
  | .nil, c, h => by simp [NodeList.toList] at h
  | .cons hd t, c, h => by
    unfold NodeList.toList at h
    unfold sizeNL
    rcases List.mem_cons.mp h with h1 | h1
    · subst h1
      omega
    · have := sizeN_le_sizeNL_of_mem t c h1
      omega

theorem sizeN_lt_of_mem_children (node c : Node) (h : c ∈ node.children) :
    sizeN c < sizeN node := by
  cases node with
  | mk t tx r co cs =>
    have h1 := sizeN_le_sizeNL_of_mem cs c h
    have h2 : sizeN (Node.mk t tx r co cs) = 1 + sizeNL cs := rfl
    omega

/-- Core of C10, by induction on the fuel: the chain walk reaches a base only
if that base is an identifier, and when it reaches none the collected parts
are exactly the property names. -/
theorem chainWalk_core : ∀ (fuel : Nat) (node : Node), sizeN node ≤ fuel →
    (∀ b, chainBaseF fuel node = some b → b.type = "identifier") ∧
    (chainBaseF fuel node = none → gmenPartsF fuel node = chainPropsF fuel node) := by
  intro fuel
  induction fuel with
  | zero =>
    intro node h
    have := sizeN_pos node
    omega
  | succ f ih =>
    intro node hle
    constructor
    · intro b hb
      unfold chainBaseF at hb
      cases hid : node.type == "identifier" with
      | true =>
        simp only [hid, if_true] at hb
        cases hb
        exact eq_of_beq hid
      | false =>
        simp only [hid, Bool.false_eq_true, if_false] at hb
        cases hmem : node.type == "member_expression" with
        | true =>
          simp only [hmem, if_true] at hb
          cases hf : node.children.find?
              (fun c => c.type == "identifier" || c.type == "member_expression") with
          | some next =>
            rw [hf] at hb
            have hnext : next ∈ node.children := List.mem_of_find?_eq_some hf
            have hsize : sizeN next ≤ f := by
              have := sizeN_lt_of_mem_children node next hnext
              omega
            exact (ih next hsize).1 b hb
          | none =>
            rw [hf] at hb
            exact absurd hb (by simp)
        | false =>
          simp only [hmem, Bool.false_eq_true, if_false] at hb
          exact absurd hb (by simp)
    · intro hb
      unfold chainBaseF at hb
      unfold gmenPartsF chainPropsF
      cases hid : node.type == "identifier" with
      | true =>
        simp only [hid, if_true] at hb
        exact absurd hb (by simp)
      | false =>
        simp only [hid, Bool.false_eq_true, if_false] at hb ⊢
        cases hmem : node.type == "member_expression" with
        | true =>
          simp only [hmem, if_true] at hb ⊢
          cases hf : node.children.find?
              (fun c => c.type == "identifier" || c.type == "member_expression") with
          | some next =>
            rw [hf] at hb
            have hnext : next ∈ node.children := List.mem_of_find?_eq_some hf
            have hsize : sizeN next ≤ f := by
              have := sizeN_lt_of_mem_children node next hnext
              omega
            simp only [hf]
            rw [(ih next hsize).2 hb]
          | none => simp only [hf]
        | false =>
          simp only [hmem, Bool.false_eq_true, if_false]

theorem chainBase_identifier (node : Node) (b : Node) (h : chainBase node = some b) :
    b.type = "identifier" :=
  (chainWalk_core (sizeN node) node (Nat.le_refl _)).1 b h

theorem gmenParts_eq_chainProps (node : Node) (h : chainBase node = none) :
    gmenParts node = chainProps node :=
  (chainWalk_core (sizeN node) node (Nat.le_refl _)).2 h

theorem listFlat_cons {α : Type} (x : List α) (xs : List (List α)) :
    listFlat (x :: xs) = x ++ listFlat xs := rfl

theorem escapedOnce_escape : ∀ l : List Char, '\\' ∉ l →
    escapedOnce (listFlat (l.map (fun c =>
      if isMermaidSpecial c then ['\\', c] else [c]))) = true
  | [], _ => rfl
  | c :: rest, h => by
    have hc : c ≠ '\\' := fun hcc => h (hcc ▸ List.mem_cons_self c rest)
    have hrest : '\\' ∉ rest := fun hr => h (List.mem_cons_of_mem c hr)
    have ih := escapedOnce_escape rest hrest
    rw [List.map_cons, listFlat_cons]
    cases hs : isMermaidSpecial c with
    | true =>
      simp only [hs, if_true, List.cons_append, List.nil_append]
      unfold escapedOnce
      simp [hs, ih]
    | false =>
      simp only [hs, Bool.false_eq_true, if_false, List.cons_append, List.nil_append]
      unfold escapedOnce
      simp [hs, hc, ih]

theorem escapedOnce_escapeMermaid (s : String) (h : '\\' ∉ s.data) :
    escapedOnce (escapeMermaid s).data = true := by
  unfold escapeMermaid
  exact escapedOnce_escape s.data h

theorem splitChar_cons (sep c : Char) (rest : List Char) :
    splitChar sep (c :: rest) =
      match splitChar sep rest with
      | [] => [[]]
      | grp :: more => if c = sep then [] :: grp :: more else (c :: grp) :: more := rfl

theorem splitChar_ne_nil (sep : Char) : ∀ l : List Char, splitChar sep l ≠ []
  | [] => by simp [splitChar]
  | c :: rest => by
    rw [splitChar_cons]
    cases hs : splitChar sep rest with
    | nil => exact absurd hs (splitChar_ne_nil sep rest)
    | cons grp more =>
      by_cases hc : c = sep
      · simp [hc]
      · simp [hc]

theorem splitChar_of_not_mem (sep : Char) : ∀ l : List Char, sep ∉ l →
    splitChar sep l = [l]
  | [], _ => rfl
  | c :: rest, h => by
    have hc : c ≠ sep := fun hcc => h (hcc ▸ List.mem_cons_self c rest)
    have hrest : sep ∉ rest := fun hr => h (List.mem_cons_of_mem c hr)
    rw [splitChar_cons, splitChar_of_not_mem sep rest hrest]
    simp [hc]

theorem splitChar_append_sep (sep : Char) : ∀ (a b : List Char), sep ∉ a →
    splitChar sep (a ++ sep :: b) = a :: splitChar sep b
  | [], b, _ => by
    simp only [List.nil_append]
    rw [splitChar_cons]
    cases hs : splitChar sep b with
    | nil => exact absurd hs (splitChar_ne_nil sep b)
    | cons grp more => simp
  | c :: a', b, h => by
    have hc : c ≠ sep := fun hcc => h (hcc ▸ List.mem_cons_self c a')
    have ha' : sep ∉ a' := fun hr => h (List.mem_cons_of_mem c hr)
    have ih := splitChar_append_sep sep a' b ha'
    simp only [List.cons_append]
    rw [splitChar_cons, ih]
    simp [hc]

theorem string_data_append (s t : String) : (s ++ t).data = s.data ++ t.data := rfl

/-- Emitting a store entry whose key was built from a colon-free caller and a
colon-free callee recovers exactly that pair, escaped once each. -/
theorem emitOne_spec (caller callee loc : String)
    (hc : ':' ∉ caller.data) (he : ':' ∉ callee.data) :
    emitOne (caller ++ ":" ++ callee) loc =
      .ok (escapeMermaid (loc ++ ": " ++ caller), escapeMermaid callee) := by
  unfold emitOne
  have hdata : (caller ++ ":" ++ callee).data = caller.data ++ ':' :: callee.data := by
    rw [string_data_append, string_data_append, List.append_assoc]
    rfl
  rw [hdata, splitChar_append_sep ':' caller.data callee.data hc,
    splitChar_of_not_mem ':' callee.data he]
  rfl

/-- The instance state across one `parse` call only grows its Edge Store by
appending: nothing clears the tables, so a later call starts from (and keeps)
every earlier relation. -/
theorem parse_relations_extend (st : PState) (fp : String)
    (rd : Except Unit String) (tof : String → Except Unit Node) :
    ∃ d, ((parse st fp rd tof).1).relations = st.relations ++ d := by
  unfold parse
  cases rd with
  | error u => exact ⟨[], by simp⟩
  | ok content =>
    dsimp only
    cases hgr : hasGrammar (extOf fp) with
    | false =>
      simp only [hgr, Bool.false_eq_true, if_false]
      exact ⟨[], by simp⟩
    | true =>
      simp only [hgr, if_true]
      cases htr : tof content with
      | error u => exact ⟨[], by simp⟩
      | ok root =>
        dsimp only
        have hstep := stepOK_traverseTree st root none none "global"
        cases ht : traverseTree st root none none "global" with
        | error s' =>
          rw [ht] at hstep
          exact hstep.1
        | ok s' =>
          rw [ht] at hstep
          dsimp only
          cases hem : emitRelations s'.relations with
          | error u => exact hstep.1
          | ok results => exact hstep.1

theorem mget?_append_right {α β : Type} [BEq α] :
    ∀ (a b : List (α × β)) (k : α), mhas a k = false → mget? (a ++ b) k = mget? b k
  | [], b, k, _ => rfl
  | p :: rest, b, k, h => by
    unfold mhas at h
    cases hb : p.1 == k
    · rw [hb] at h
      simp at h
      simp [mget?, hb, mget?_append_right rest b k h]
    · rw [hb] at h
      simp at h

theorem addRelation_mget?_of_mhas_false (s : PState) (caller callee loc : String)
    (h : mhas s.relations (caller ++ ":" ++ callee) = false) :
    mget? (addRelation s caller callee loc).relations (caller ++ ":" ++ callee) = some loc := by
  rw [addRelation_relations_of_mhas_false s caller callee loc h,
    mget?_append_right s.relations _ _ h]
  simp [mget?]

/-- Shape lemma for the variable-declaration path with a member-expression
initializer: no relation is touched, yet the variable name is written over
whatever `functions` held for it. -/
theorem processVariableDeclaration_overwrite (s : PState) (node : Node) (sc : String)
    (d ident v : Node)
    (hd : node.children.find? (fun c => c.type == "variable_declarator") = some d)
    (hident : d.children.find? (fun c => c.type == "identifier") = some ident)
    (hv : d.children.find? (fun c =>
      c.type == "call_expression" || c.type == "member_expression") = some v)
    (hvt : v.type = "member_expression") :
    ∃ s', processVariableDeclaration s node sc = .ok s' ∧
      s'.relations = s.relations ∧
      mget? s'.functions (some ident.text) = some (FnInfo.mk "variable" (node.row + 1) []) := by
  unfold processVariableDeclaration
  rw [hd]
  dsimp only
  rw [hident, hv]
  dsimp only
  have hfalse : (v.type == "call_expression") = false := by
    rw [hvt]
    decide
  simp only [hfalse, Bool.false_eq_true, if_false]
  refine ⟨_, rfl, rfl, ?_⟩
  exact mget?_mset_self _ _ _

/-! Claims. -/

/-- C2: for every (caller, callee) pair, at most one edge keyed by that pair
exists after a walk — the edge-key list stays duplicate-free through the whole
traversal when it starts duplicate-free, as it does from the constructor's
empty tables; `addRelation` of a pair already present returns the store (and
the whole state) unchanged, and `addRelation` of a new pair appends it with
the location of that first triggering occurrence, which is then the stored
location of the pair. -/
theorem c2_edge_dedup_first_write_wins :
    (∀ (s : PState) (caller callee loc : String),
      mhas s.relations (caller ++ ":" ++ callee) = true →
      addRelation s caller callee loc = s) ∧
    (∀ (s : PState) (caller callee loc : String),
      mhas s.relations (caller ++ ":" ++ callee) = false →
      (addRelation s caller callee loc).relations =
        s.relations ++ [(caller ++ ":" ++ callee, loc)] ∧
      mget? (addRelation s caller callee loc).relations
        (caller ++ ":" ++ callee) = some loc) ∧
    (∀ (s : PState) (node : Node) (parent : Option Node) (pc : Option String)
      (sc : String), (s.relations.map Prod.fst).Nodup →
      ((outState (traverseTree s node parent pc sc)).relations.map Prod.fst).Nodup) :=
  ⟨addRelation_of_mhas,
   fun s caller callee loc h =>
     ⟨addRelation_relations_of_mhas_false s caller callee loc h,
      addRelation_mget?_of_mhas_false s caller callee loc h⟩,
   fun s node parent pc sc h => (stepOK_traverseTree s node parent pc sc).2.2 h⟩

/-- Witness for C2 at concrete inputs: re-adding the pair (a, b) leaves the
state untouched; adding it to an empty store appends it with its location,
which is then what lookup returns; and the walk over the C1 tree keeps the
edge keys duplicate-free. -/
theorem c2_edge_dedup_first_write_wins_witness :
    addRelation (PState.mk [] [("a:b", "1:1")] []) "a" "b" "9:9" =
      PState.mk [] [("a:b", "1:1")] [] ∧
    (addRelation initState "a" "b" "1:1").relations = [] ++ [("a:b", "1:1")] ∧
    mget? (addRelation initState "a" "b" "1:1").relations ("a" ++ ":" ++ "b") = some "1:1" ∧
    ((outState (traverseTree initState c1Tree none none "global")).relations.map
      Prod.fst).Nodup :=
  ⟨c2_edge_dedup_first_write_wins.1 (PState.mk [] [("a:b", "1:1")] []) "a" "b" "9:9"
     (by decide),
   (c2_edge_dedup_first_write_wins.2.1 initState "a" "b" "1:1" (by decide)).1,
   (c2_edge_dedup_first_write_wins.2.1 initState "a" "b" "1:1" (by decide)).2,
   c2_edge_dedup_first_write_wins.2.2 initState c1Tree none none "global" (by decide)⟩

/-- C10: whenever the member-chain walk reaches a base, that base is a bare
identifier; when the innermost base is not a bare identifier the walk stops
silently (yields no base) and the candidate callee name is exactly the
collected property names joined with '.', with no base prefix. -/
theorem c10_member_chain_props_only :
    (∀ node b, chainBase node = some b → b.type = "identifier") ∧
    (∀ node, chainBase node = none →
      getMemberExpressionName node = String.intercalate "." (chainProps node)) :=
  ⟨chainBase_identifier,
   fun node h => by
     unfold getMemberExpressionName
     rw [gmenParts_eq_chainProps node h]⟩

/-- Witness for C10 on `this.a.b`: the chain has no identifier base, and the
candidate name is "a.b", the dot-joined property names with no base prefix. -/
theorem c10_member_chain_props_only_witness :
    chainBase c10Chain = none ∧
    getMemberExpressionName c10Chain = String.intercalate "." (chainProps c10Chain) ∧
    getMemberExpressionName c10Chain = "a.b" ∧
    chainProps c10Chain = ["a", "b"] :=
  ⟨rfl, c10_member_chain_props_only.2 c10Chain rfl, by decide, by decide⟩

/-- C6: an emitted pair for a store entry keyed by a colon-free caller and
callee is exactly [escapeMermaid "<location>: <caller>", escapeMermaid callee]
— escaping applied exactly once, at emission; on backslash-free input every
reserved character `< > \x7b \x7d |` of the escaped output is preceded by
exactly one backslash (`escapedOnce`); and the store itself keeps the raw
location — escaping is applied nowhere else. -/
theorem c6_escaping_once_at_emission :
    (∀ caller callee loc : String, ':' ∉ caller.data → ':' ∉ callee.data →
      emitOne (caller ++ ":" ++ callee) loc =
        .ok (escapeMermaid (loc ++ ": " ++ caller), escapeMermaid callee)) ∧
    (∀ s : String, '\\' ∉ s.data → escapedOnce (escapeMermaid s).data = true) ∧
    (∀ (s : PState) (caller callee loc : String),
      mhas s.relations (caller ++ ":" ++ callee) = false →
      mget? (addRelation s caller callee loc).relations
        (caller ++ ":" ++ callee) = some loc) :=
  ⟨emitOne_spec, escapedOnce_escapeMermaid, addRelation_mget?_of_mhas_false⟩

/-- Witness for C6 at concrete strings: the pair for caller "A" and callee
"B<C" at "3:7" emits once-escaped strings, the escape of a string holding all
five reserved characters passes the exactly-once check, and the raw location
is what the store returns. -/
theorem c6_escaping_once_at_emission_witness :
    emitOne ("A" ++ ":" ++ "B<C") "3:7" =
      .ok (escapeMermaid ("3:7" ++ ": " ++ "A"), escapeMermaid "B<C") ∧
    escapedOnce (escapeMermaid "a<b\x7bc|d\x7de>f").data = true ∧
    mget? (addRelation initState "A" "B<C" "3:7").relations ("A" ++ ":" ++ "B<C") =
      some "3:7" :=
  ⟨c6_escaping_once_at_emission.1 "A" "B<C" "3:7" (by decide) (by decide),
   c6_escaping_once_at_emission.2.1 "a<b\x7bc|d\x7de>f" (by decide),
   c6_escaping_once_at_emission.2.2 initState "A" "B<C" "3:7" (by decide)⟩

/-- C5: (1) a successful visit hands its children the pair
`scopeStep node parent parentClass currentScope`, a pure function of the node,
its parent and the incoming context only — never of the table state; (2) every
relation present after a visit that was not there before is keyed by the
visit's currentScope as caller; (3) along any valid path from the root the
currentScope reaching a node is the name of the innermost named
function/method/arrow declaration crossed on the way, or the inherited scope
("global" at the root) when there is none — nesting in plain blocks or
anonymous callbacks does not change it; (4) the recursion passes that same
pure pair to every child in the list, so traversing one subtree cannot change
the scope a sibling subtree receives (value semantics). -/
theorem c5_scope_attribution :
    (∀ (s : PState) (node : Node) (parent : Option Node) (pc : Option String)
      (sc : String) (r : PState × Option String × String),
      processNode s node parent pc sc = .ok r → r.2 = scopeStep node parent pc sc) ∧
    (∀ (s : PState) (node : Node) (parent : Option Node) (pc : Option String)
      (sc : String), ∀ kl ∈ (pnState (processNode s node parent pc sc)).relations,
      kl ∈ s.relations ∨ ∃ cn, kl.1 = sc ++ ":" ++ cn) ∧
    (∀ (p : List Nat) (node : Node) (parent : Option Node) (pc : Option String)
      (sc : String) (out : Option String × String),
      scopeAt node parent pc sc p = some out →
      out.2 = lastD (declNamesAlong node parent pc p) sc) ∧
    (∀ (fuel : Nat) (s : PState) (node : Node) (parent : Option Node)
      (pc : Option String) (sc : String),
      traverseTreeF (fuel + 1) s node parent pc sc =
        match processNode s node parent pc sc with
        | .error e => .error e
        | .ok (s1, _, _) =>
          traverseListF fuel s1 node.children node
            (scopeStep node parent pc sc).1 (scopeStep node parent pc sc).2) :=
  ⟨processNode_scope, processNode_relations_caller, scopeAt_eq_lastD,
   traverseTreeF_children_scope⟩

/-- Witness for C5: visiting `function foo(){}` yields the scope pair
`scopeStep` computes; the edge a call visit adds is keyed by the visiting
scope "global"; on the C7 tree the path to the `<Route .../>` tag (program →
function App → body → return → tag) carries scope "App", the innermost named
declaration crossed; and one unfolding of the traversal at that node is the
fold with that pure scope pair. -/
theorem c5_scope_attribution_witness :
    (∃ r, processNode initState c3FnNode none none "global" = .ok r ∧
      r.2 = scopeStep c3FnNode none none "global") ∧
    (("global:foo", "2:0") ∈
        (PState.mk [(some "foo", FnInfo.mk "function" 1 [])] [] []).relations ∨
      ∃ cn, ("global:foo", "2:0").1 = "global" ++ ":" ++ cn) ∧
    (∃ out, scopeAt c7Tree none none "global" [2, 3, 1, 1] = some out ∧
      out.2 = lastD (declNamesAlong c7Tree none none [2, 3, 1, 1]) "global" ∧
      out.2 = "App") ∧
    traverseTreeF 1 initState c3FnNode none none "global" =
      (match processNode initState c3FnNode none none "global" with
        | .error e => .error e
        | .ok (s1, _, _) =>
          traverseListF 0 s1 c3FnNode.children c3FnNode
            (scopeStep c3FnNode none none "global").1
            (scopeStep c3FnNode none none "global").2) :=
  ⟨⟨(PState.mk [(some "foo", FnInfo.mk "function" 1 [])] [] [], none, "foo"), rfl,
    c5_scope_attribution.1 initState c3FnNode none none "global"
      (PState.mk [(some "foo", FnInfo.mk "function" 1 [])] [] [], none, "foo") rfl⟩,
   c5_scope_attribution.2.1
     (PState.mk [(some "foo", FnInfo.mk "function" 1 [])] [] [])
     c5CallNode none none "global" ("global:foo", "2:0") (by decide),
   ⟨(none, "App"), rfl,
    c5_scope_attribution.2.2.1 [2, 3, 1, 1] c7Tree none none "global" (none, "App") rfl,
    rfl⟩,
   c5_scope_attribution.2.2.2 0 initState c3FnNode none none "global"⟩

/-- C8: `parse` returns the serialized empty result "[]" when the read of the
file throws, when the extension has no associated grammar, when the front-end
parse of the content throws, and when the traversal throws; the exception is
caught at the `parse` boundary only and converted (the function is total), not
propagated. -/
theorem c8_parse_error_fallback (st : PState) (fp : String)
    (rd : Except Unit String) (tof : String → Except Unit Node) :
    (rd = .error () → (parse st fp rd tof).2 = "[]") ∧
    (hasGrammar (extOf fp) = false → (parse st fp rd tof).2 = "[]") ∧
    (∀ content, rd = .ok content → tof content = .error () →
      (parse st fp rd tof).2 = "[]") ∧
    (∀ content root e, rd = .ok content → tof content = .ok root →
      traverseTree st root none none "global" = .error e →
      (parse st fp rd tof).2 = "[]") := by
  refine ⟨?_, ?_, ?_, ?_⟩
  · intro h
    rw [h]
    rfl
  · intro h
    unfold parse
    cases rd with
    | error u => rfl
    | ok content =>
      dsimp only
      simp only [h, Bool.false_eq_true, if_false]
  · intro content h ht
    rw [h]
    unfold parse
    dsimp only
    cases hgr : hasGrammar (extOf fp) with
    | false => simp only [hgr, Bool.false_eq_true, if_false]
    | true =>
      simp only [hgr, if_true, ht]
  · intro content root e h ht htr
    rw [h]
    unfold parse
    dsimp only
    cases hgr : hasGrammar (extOf fp) with
    | false => simp only [hgr, Bool.false_eq_true, if_false]
    | true =>
      simp only [hgr, if_true, ht]
      simp only [htr]

/-- Witness for C8: a throwing read, an unknown extension "txt", a throwing
front-end parse, and a tree whose traversal throws (an `arrow_function` root,
whose `node.parent` is null) all yield "[]". -/
theorem c8_parse_error_fallback_witness :
    (parse initState "a.js" (.error ()) (fun _ => .ok c9EmptyTree)).2 = "[]" ∧
    (parse initState "a.txt" (.ok "") (fun _ => .ok c9EmptyTree)).2 = "[]" ∧
    (parse initState "a.js" (.ok "") (fun _ => .error ())).2 = "[]" ∧
    (parse initState "a.js" (.ok "") (fun _ => .ok c8ThrowTree)).2 = "[]" :=
  ⟨(c8_parse_error_fallback initState "a.js" (.error ()) (fun _ => .ok c9EmptyTree)).1 rfl,
   (c8_parse_error_fallback initState "a.txt" (.ok "") (fun _ => .ok c9EmptyTree)).2.1
     (by decide),
   (c8_parse_error_fallback initState "a.js" (.ok "") (fun _ => .error ())).2.2.1 "" rfl rfl,
   (c8_parse_error_fallback initState "a.js" (.ok "") (fun _ => .ok c8ThrowTree)).2.2.2
     "" c8ThrowTree initState rfl rfl rfl⟩

/-- C1 counterexample: walking `const x = foo();` with `foo` never declared
anywhere records the edge global→foo even though `foo` is a key of neither the
Symbol Table nor the Import Table — not at the moment of the visit and not
even after the whole walk (the tables only ever gain keys) — refuting the
claim that every call-like occurrence, including a call appearing as a
variable initializer, is recorded only under the table guard. -/
theorem c1_counterexample :
    mhas (outState (traverseTree initState c1Tree none none "global")).relations
      ("global" ++ ":" ++ "foo") = true ∧
    mhas (outState (traverseTree initState c1Tree none none "global")).functions
      (some "foo") = false ∧
    mhas (outState (traverseTree initState c1Tree none none "global")).imports
      "foo" = false := by
  refine ⟨?_, ?_, ?_⟩ <;> decide

/-- C1 amended: the Symbol/Import-table guard holds for direct calls, chained
calls and markup references — every edge those resolutions add has, at the
moment of the visit, a callee that is a key of the Symbol Table or of the
Import Table — but a call appearing as a variable initializer records its edge
unconditionally, without consulting either table. -/
theorem c1_amended_guard_except_var_initializer :
    (∀ (s : PState) (node : Node) (sc : String),
      ∀ kl ∈ (processCallExpression s node sc).relations,
      kl ∈ s.relations ∨ ∃ cn, kl.1 = sc ++ ":" ++ cn ∧
        (mhas s.functions (some cn) || mhas s.imports cn) = true) ∧
    (∀ (s : PState) (node : Node) (sc : String),
      ∀ kl ∈ (processJSXElement s node sc).relations,
      kl ∈ s.relations ∨ ∃ cn, kl.1 = sc ++ ":" ++ cn ∧
        (mhas s.functions (some cn) || mhas s.imports cn) = true) ∧
    (∀ (s : PState) (node : Node) (sc : String) (d ident v callee : Node),
      node.children.find? (fun c => c.type == "variable_declarator") = some d →
      d.children.find? (fun c => c.type == "identifier") = some ident →
      d.children.find? (fun c =>
        c.type == "call_expression" || c.type == "member_expression") = some v →
      v.type = "call_expression" → v.children.head? = some callee →
      callee.type = "identifier" →
      ∃ s', processVariableDeclaration s node sc = .ok s' ∧
        mhas s'.relations (sc ++ ":" ++ callee.text) = true) :=
  ⟨processCallExpression_new,
   fun s node sc => (guardNew_processJSXElement sc s node).1,
   fun s node sc d ident v callee hd hi hv hvt hh hct =>
     Exists.imp (fun _ h => ⟨h.1, h.2.1⟩)
       (processVariableDeclaration_record s node sc d ident v callee hd hi hv hvt hh hct)⟩

/-- Witness for the amended C1: a guarded call edge (callee `foo` is in the
Symbol Table), a guarded markup edge (tag `Comp` is in the Import Table), and
the unguarded variable-initializer edge of `const x = foo();` recorded from
the empty tables. -/
theorem c1_amended_guard_except_var_initializer_witness :
    (("global:foo", "2:0") ∈
        (PState.mk [(some "foo", FnInfo.mk "function" 1 [])] [] []).relations ∨
      ∃ cn, ("global:foo", "2:0").1 = "global" ++ ":" ++ cn ∧
        (mhas (PState.mk [(some "foo", FnInfo.mk "function" 1 [])] [] []).functions
            (some cn) ||
          mhas (PState.mk [(some "foo", FnInfo.mk "function" 1 [])] [] []).imports cn) =
          true) ∧
    (("global:Comp", "1:0") ∈ (PState.mk [] [] [("Comp", "import:Comp")]).relations ∨
      ∃ cn, ("global:Comp", "1:0").1 = "global" ++ ":" ++ cn ∧
        (mhas (PState.mk [] [] [("Comp", "import:Comp")]).functions (some cn) ||
          mhas (PState.mk [] [] [("Comp", "import:Comp")]).imports cn) = true) ∧
    (∃ s', processVariableDeclaration initState c1LexNode "global" = .ok s' ∧
      mhas s'.relations ("global" ++ ":" ++ c1Callee.text) = true) :=
  ⟨c1_amended_guard_except_var_initializer.1
     (PState.mk [(some "foo", FnInfo.mk "function" 1 [])] [] [])
     c5CallNode "global" ("global:foo", "2:0") (by decide),
   c1_amended_guard_except_var_initializer.2.1
     (PState.mk [] [] [("Comp", "import:Comp")])
     c1JsxNode "global" ("global:Comp", "1:0") (by decide),
   c1_amended_guard_except_var_initializer.2.2 initState c1LexNode "global"
     c1Declarator c1Ident c1Value c1Callee rfl rfl rfl rfl rfl rfl⟩

/-- C3 counterexample: after walking `function foo() \x7b\x7d` alone, the
Symbol Table maps foo to a function declared at line 1; walking the same
declaration followed by `const foo = a.b;` ends with foo mapped to a variable
at line 2 with an empty callee set — the later variable declaration of an
existing name is not a no-op: it replaces the symbol's kind and line. -/
theorem c3_counterexample :
    (outState (traverseTree initState c3FnOnlyTree none none "global")).functions =
      [(some "foo", FnInfo.mk "function" 1 [])] ∧
    (outState (traverseTree initState c3Tree none none "global")).functions =
      [(some "foo", FnInfo.mk "variable" 2 [])] := by
  refine ⟨?_, ?_⟩ <;> decide

/-- C3 amended: first-declaration-wins holds for the `addFunction` path
(function/class/method/arrow declarations): re-declaring an existing name is a
no-op, and no operation of the walk ever removes a symbol key; but a variable
declaration whose initializer is a call or member expression writes through
`Map.set`, replacing an existing symbol's kind, declared line and callee set
with a fresh variable record. -/
theorem c3_amended_first_wins_except_var_declaration :
    (∀ (s : PState) (name : Option String) (loc : Nat) (t : String),
      mhas s.functions name = true → addFunction s name loc t = s) ∧
    (∀ (s : PState) (node : Node) (parent : Option Node) (pc : Option String)
      (sc : String) (k : Option String), mhas s.functions k = true →
      mhas (outState (traverseTree s node parent pc sc)).functions k = true) ∧
    (∀ (s : PState) (node : Node) (sc : String) (d ident v : Node),
      node.children.find? (fun c => c.type == "variable_declarator") = some d →
      d.children.find? (fun c => c.type == "identifier") = some ident →
      d.children.find? (fun c =>
        c.type == "call_expression" || c.type == "member_expression") = some v →
      v.type = "member_expression" →
      ∃ s', processVariableDeclaration s node sc = .ok s' ∧
        mget? s'.functions (some ident.text) =
          some (FnInfo.mk "variable" (node.row + 1) [])) :=
  ⟨addFunction_of_mhas,
   fun s node parent pc sc k h => (stepOK_traverseTree s node parent pc sc).2.1 k h,
   fun s node sc d ident v hd hi hv hvt =>
     Exists.imp (fun _ h => ⟨h.1, h.2.2⟩)
       (processVariableDeclaration_overwrite s node sc d ident v hd hi hv hvt)⟩

/-- Witness for the amended C3: re-adding the declared name foo is a no-op,
the key survives a whole walk, and the `const foo = a.b;` statement overwrites
a foo previously registered as a line-1 function with a line-2 variable
record. -/
theorem c3_amended_first_wins_except_var_declaration_witness :
    addFunction (PState.mk [(some "foo", FnInfo.mk "function" 1 [])] [] [])
      (some "foo") 5 "class" = PState.mk [(some "foo", FnInfo.mk "function" 1 [])] [] [] ∧
    mhas (outState (traverseTree (PState.mk [(some "foo", FnInfo.mk "function" 1 [])] [] [])
      c3Tree none none "global")).functions (some "foo") = true ∧
    (∃ s', processVariableDeclaration
        (PState.mk [(some "foo", FnInfo.mk "function" 1 [])] [] []) c3LexNode "global" =
        .ok s' ∧
      mget? s'.functions (some "foo") = some (FnInfo.mk "variable" 2 [])) :=
  ⟨c3_amended_first_wins_except_var_declaration.1
     (PState.mk [(some "foo", FnInfo.mk "function" 1 [])] [] []) (some "foo") 5 "class"
     (by decide),
   c3_amended_first_wins_except_var_declaration.2.1
     (PState.mk [(some "foo", FnInfo.mk "function" 1 [])] [] []) c3Tree none none
     "global" (some "foo") (by decide),
   c3_amended_first_wins_except_var_declaration.2.2
     (PState.mk [(some "foo", FnInfo.mk "function" 1 [])] [] []) c3LexNode "global"
     c3Declarator c3Ident c3Value rfl rfl rfl rfl⟩

/-- C4 counterexample: after walking `import \x7b X as Y \x7d from 'm';` the
Import Table is still empty — the local alias Y is not a key (and neither is
X), refuting the claim that an aliased named import binds Y in the table. -/
theorem c4_counterexample :
    mhas (outState (traverseTree initState c4AliasTree none none "global")).imports
      "Y" = false ∧
    mhas (outState (traverseTree initState c4AliasTree none none "global")).imports
      "X" = false ∧
    (outState (traverseTree initState c4AliasTree none none "global")).imports = [] := by
  refine ⟨?_, ?_, ?_⟩ <;> decide

/-- C4 amended: visiting an aliased named import `import \x7b X as Y \x7d`
registers nothing — the specifier search filters the direct children of the
statement's `import_clause`, where the specifiers are hidden one level deeper
inside `named_imports` — so no later reference resolves through Y; a
default import `import X from 'm'` does register its local name, binding the key X to
the string "import:X" (not to the name itself). -/
theorem c4_amended_named_imports_not_registered :
    (outState (traverseTree initState c4AliasTree none none "global")).imports =
      initState.imports ∧
    (outState (traverseTree initState c4DefaultTree none none "global")).imports =
      [("X", "import:X")] := by
  refine ⟨?_, ?_⟩ <;> decide

/-- C7 counterexample: in the scenario `<Route element=\x7b<Dashboard/>\x7d />`
inside `function App`, with Route and Dashboard both bound in the Import
Table, the walk records no relation at all — in particular no App→Dashboard
edge at any location — refuting the claimed `element`-attribute handling: a
directly visited self-closing element contributes nothing (the element
collector looks for a `jsx_opening_element` child or direct child elements and
finds neither), and an attribute expression wrapping nested markup is skipped
(only identifier/call/member-expression contents are examined). -/
theorem c7_counterexample :
    mhas (outState (traverseTree initState c7Tree none none "global")).relations
      ("App" ++ ":" ++ "Dashboard") = false ∧
    (outState (traverseTree initState c7Tree none none "global")).relations = [] ∧
    mhas (outState (traverseTree initState c7Tree none none "global")).imports
      "Dashboard" = true := by
  refine ⟨?_, ?_, ?_⟩ <;> decide

/-- C7 amended: the scenario produces no edge: `processJSXElement` on the
`<Route element=\x7b<Dashboard/>\x7d />` tag is the identity for every state
and scope, and the whole walk of the scenario tree leaves the Edge Store
empty, so no App→Dashboard edge exists at the Dashboard tag's location or
anywhere else. -/
theorem c7_amended_no_edge_for_element_attribute :
    (∀ (s : PState) (sc : String), processJSXElement s c7RouteTag sc = s) ∧
    (outState (traverseTree initState c7Tree none none "global")).relations = [] := by
  refine ⟨?_, ?_⟩
  · intro s sc
    rfl
  · decide

/-- C9 counterexample: calling `parse` a second time on the same instance
leaks state: after parsing a file declaring `function foo()` and calling
`foo()`, parsing an empty program on the same instance still outputs the first
file's edge, while a fresh instance outputs "[]" — the tables are not
reinitialized per call. -/
theorem c9_counterexample :
    (parse (parse initState "a.js" (.ok "") (fun _ => .ok c9FirstTree)).1 "b.js"
        (.ok "") (fun _ => .ok c9EmptyTree)).2 ≠
      (parse initState "b.js" (.ok "") (fun _ => .ok c9EmptyTree)).2 ∧
    (parse initState "b.js" (.ok "") (fun _ => .ok c9EmptyTree)).2 = "[]" ∧
    (parse (parse initState "a.js" (.ok "") (fun _ => .ok c9FirstTree)).1 "b.js"
        (.ok "") (fun _ => .ok c9EmptyTree)).2 = "[[\"2:0: global\",\"foo\"]]" := by
  refine ⟨?_, ?_, ?_⟩ <;> decide

/-- C9 amended: in the embedding the output is a pure function of the instance
tables and the inputs (so two runs from equal states agree, and fresh
instances are deterministic), but the three tables are initialized in the
constructor only and `parse` never resets them: a call's final Edge Store
always extends the incoming one by appending, so a second call on the same
instance starts from — and its output includes — the previous call's
relations. -/
theorem c9_amended_state_leaks_across_calls (st : PState) (fp : String)
    (rd : Except Unit String) (tof : String → Except Unit Node) :
    ∃ d, ((parse st fp rd tof).1).relations = st.relations ++ d :=
  parse_relations_extend st fp rd tof
